import Mathlib

/-!
# MatrixLib: a shallow embedding of `matrix.hpp`

The C++ class `Matrix` (namespace `md`) stores `std::vector<std::vector<double>> data`
together with `size_t rows, cols`.  Entries are modelled as exact rationals, vectors as lists,
`for` loops as folds over `List.range`, element writes as `Matrix.set`, and `throw` as the
`Except.error` result, with one `MatrixError` constructor per `throw` site.
-/

/-- Mathlib's square matrices over the rationals, named before `md.Matrix` shadows `Matrix`. -/
abbrev RatMatrix (n : Nat) : Type := Matrix (Fin n) (Fin n) ℚ

namespace md

/-- The exceptions thrown in `matrix.hpp`, one constructor per `throw` statement. -/
inductive MatrixError where
  /-- `std::invalid_argument("Matrix dimensions must be the same!")` (`operator+`, `operator-`). -/
  | dimensionsMustBeSame
  /-- `std::invalid_argument("Invalid matrix dimensions for multiplication!")`. -/
  | invalidMultiplicationDimensions
  /-- `std::invalid_argument("Determinant can only be calculated for square matrices!")`. -/
  | determinantNotSquare
  /-- `std::runtime_error("Matrix is non-invertible (determinant is zero)!")`. -/
  | nonInvertible
  /-- `std::invalid_argument("Inversion is only possible for square matrices!")`. -/
  | inversionNotSquare
  /-- `std::invalid_argument("New row must have the same number of columns as the matrix!")`. -/
  | newRowSize
  /-- `std::invalid_argument("New column must have the same number of rows as the matrix!")`. -/
  | newColumnSize
  /-- `std::invalid_argument("Cannot remove a row from an empty matrix!")`. -/
  | removeRowEmpty
  /-- `std::invalid_argument("Cannot remove a column from an empty matrix!")`. -/
  | removeColumnEmpty
  deriving DecidableEq, Repr

/-- The data members of `class Matrix`: `data`, `rows`, `cols`. -/
structure Matrix where
  data : List (List ℚ)
  rows : Nat
  cols : Nat
  deriving DecidableEq, Repr

/-- A `for (size_t i = 0; i < n; ++i) body` loop threading the state `s`. -/
def forRange {σ : Type} (n : Nat) (body : Nat → σ → σ) (s : σ) : σ :=
  (List.range n).foldl (fun acc i => body i acc) s

namespace Matrix

/-- The storage invariant: `data` has `rows` rows and every row has `cols` elements. -/
def WellFormed (m : Matrix) : Prop :=
  m.data.length = m.rows ∧ ∀ row ∈ m.data, row.length = m.cols

instance (m : Matrix) : Decidable m.WellFormed := by
  unfold WellFormed
  infer_instance

/-- The constructor `Matrix(size_t rows, size_t cols)`: `data.resize(rows, vector(cols, 0))`. -/
def construct (rows cols : Nat) : Matrix :=
  { data := List.replicate rows (List.replicate cols 0), rows := rows, cols := cols }

/-- The constructor `Matrix(const vector<vector<double>>& values)`; `values[0]` of an empty
vector (undefined in C++) is read as the empty row. -/
def ofValues (values : List (List ℚ)) : Matrix :=
  { data := values, rows := values.length, cols := (values.headD []).length }

/-- The read access `operator()(i, j) const`, i.e. `data[i][j]`; an out-of-range read
(undefined in C++) yields `0`. -/
def get (m : Matrix) (i j : Nat) : ℚ :=
  (m.data.getD i []).getD j 0

/-- The write access `operator()(i, j) = v`, i.e. `data[i][j] = v`; an out-of-range write
(undefined in C++) leaves the storage unchanged. -/
def set (m : Matrix) (i j : Nat) (v : ℚ) : Matrix :=
  { m with data := m.data.set i ((m.data.getD i []).set j v) }

/-- Addition, `Matrix::operator+`. -/
def add (self other : Matrix) : Except MatrixError Matrix :=
  if self.rows ≠ other.rows ∨ self.cols ≠ other.cols then
    .error .dimensionsMustBeSame
  else
    .ok (forRange self.rows (fun i result =>
      forRange self.cols (fun j result =>
        result.set i j (self.get i j + other.get i j)) result)
      (construct self.rows self.cols))

/-- Subtraction, `Matrix::operator-`. -/
def sub (self other : Matrix) : Except MatrixError Matrix :=
  if self.rows ≠ other.rows ∨ self.cols ≠ other.cols then
    .error .dimensionsMustBeSame
  else
    .ok (forRange self.rows (fun i result =>
      forRange self.cols (fun j result =>
        result.set i j (self.get i j - other.get i j)) result)
      (construct self.rows self.cols))

/-- Matrix product, `Matrix::operator*(const Matrix&)`, with `result(i, j) += ...`. -/
def mul (self other : Matrix) : Except MatrixError Matrix :=
  if self.cols ≠ other.rows then
    .error .invalidMultiplicationDimensions
  else
    .ok (forRange self.rows (fun i result =>
      forRange other.cols (fun j result =>
        forRange self.cols (fun k result =>
          result.set i j (result.get i j + self.get i k * other.get k j)) result) result)
      (construct self.rows other.cols))

/-- Multiplication by a scalar on the right, `Matrix::operator*(double)`. -/
def scale (self : Matrix) (scalar : ℚ) : Matrix :=
  forRange self.rows (fun i result =>
    forRange self.cols (fun j result =>
      result.set i j (self.get i j * scalar)) result)
    (construct self.rows self.cols)

/-- The friend `operator*(double scalar, const Matrix& matrix)`, `return matrix * scalar`. -/
def scalarMul (scalar : ℚ) (matrix : Matrix) : Matrix :=
  matrix.scale scalar

/-- Transposition, `Matrix::transpose`. -/
def transpose (self : Matrix) : Matrix :=
  forRange self.rows (fun i result =>
    forRange self.cols (fun j result =>
      result.set j i (self.get i j)) result)
    (construct self.cols self.rows)

/-- The inner loop shared by `determinant` and `inverse`:
`for (sub_j = 0, mat_j = 0; mat_j < cols; ++mat_j) { if (mat_j == skip) continue;
subMatrix(dstRow, sub_j++) = data[srcRow][mat_j]; }`.  The state is `(subMatrix, sub_j)`. -/
def copyRowSkipping (m : Matrix) (srcRow skip dstRow : Nat) (subMatrix : Matrix) : Matrix :=
  (forRange m.cols (fun mat_j (st : Matrix × Nat) =>
    if mat_j = skip then st
    else (st.1.set dstRow st.2 (m.get srcRow mat_j), st.2 + 1)) (subMatrix, 0)).1

/-- The minor built in `determinant` for column `p`: rows `1 .. rows-1` of `m` without
column `p`, written into a fresh `Matrix subMatrix(rows - 1, cols - 1)`. -/
def determinantSubMatrix (m : Matrix) (p : Nat) : Matrix :=
  (List.range' 1 (m.rows - 1)).foldl (fun subMatrix i =>
    copyRowSkipping m i p (i - 1) subMatrix) (construct (m.rows - 1) (m.cols - 1))

/-- The body of `Matrix::determinant`; the first argument bounds the recursion depth and is
the number of rows of the matrix (each recursive call is on a matrix with one row less).
With no depth left the matrix has no rows: `det = 0` is returned after a loop over
`p < cols = 0` that does not run. -/
def determinantAux : Nat → Matrix → Except MatrixError ℚ
  | 0, m =>
    if m.rows ≠ m.cols then .error .determinantNotSquare
    else if m.rows = 1 then .ok (m.get 0 0)
    else if m.rows = 2 then .ok (m.get 0 0 * m.get 1 1 - m.get 0 1 * m.get 1 0)
    else .ok 0
  | depth + 1, m =>
    if m.rows ≠ m.cols then .error .determinantNotSquare
    else if m.rows = 1 then .ok (m.get 0 0)
    else if m.rows = 2 then .ok (m.get 0 0 * m.get 1 1 - m.get 0 1 * m.get 1 0)
    else
      (List.range m.cols).foldlM (fun det p =>
        match determinantAux depth (determinantSubMatrix m p) with
        | .error e => .error e
        | .ok d => .ok (det + m.get 0 p * d * (if p % 2 = 0 then 1 else -1))) 0

/-- The determinant, `Matrix::determinant`. -/
def determinant (m : Matrix) : Except MatrixError ℚ :=
  determinantAux m.rows m

/-- The minor built in `inverse` for the cell `(i, j)`: `m` without row `i` and column `j`,
written into a fresh `Matrix subMatrix(rows - 1, cols - 1)`.  The state of the outer loop is
`(subMatrix, sub_i)`. -/
def inverseSubMatrix (m : Matrix) (i j : Nat) : Matrix :=
  (forRange m.rows (fun mat_i (st : Matrix × Nat) =>
    if mat_i = i then st
    else (copyRowSkipping m mat_i j st.2 st.1, st.2 + 1))
    (construct (m.rows - 1) (m.cols - 1), 0)).1

/-- The adjugate loops of `inverse`: `adj(j, i) = subMatrix.determinant() * sign(i + j)`. -/
def adjugateLoop (m : Matrix) : Except MatrixError Matrix :=
  (List.range m.rows).foldlM (fun adj i =>
    (List.range m.cols).foldlM (fun adj j =>
      match determinant (inverseSubMatrix m i j) with
      | .error e => .error e
      | .ok d => .ok (adj.set j i (d * (if (i + j) % 2 = 0 then 1 else -1)))) adj)
    (construct m.rows m.cols)

/-- Inversion, `Matrix::inverse`, on exact entries: `1 / det` is the exact reciprocal.
`DoubleMatrix.inverse` below runs the same code on `double` values. -/
def inverse (m : Matrix) : Except MatrixError Matrix :=
  match determinant m with
  | .error e => .error e
  | .ok det =>
    if det = 0 then .error .nonInvertible
    else if m.rows ≠ m.cols then .error .inversionNotSquare
    else
      match adjugateLoop m with
      | .error e => .error e
      | .ok adj => .ok (adj.scale (1 / det))

/-- Division, `Matrix::operator/`: `Matrix inverse = other.inverse(); return (*this) * inverse;`. -/
def div (self other : Matrix) : Except MatrixError Matrix :=
  match inverse other with
  | .error e => .error e
  | .ok inverse => mul self inverse

/-- The in-place `Matrix::addRow(newRow, atBottom)`: the outcome of the call and the matrix
after it.  `push_back` appends the row, `insert(data.begin(), ...)` prepends it. -/
def addRow (self : Matrix) (newRow : List ℚ) (atBottom : Bool) :
    Except MatrixError Unit × Matrix :=
  if newRow.length ≠ self.cols then (.error .newRowSize, self)
  else
    (.ok (), { data := if atBottom then self.data ++ [newRow] else newRow :: self.data,
               rows := self.rows + 1, cols := self.cols })

/-- The loop of `addColumn` over the first `n` rows:
`if (atRight) data[i].push_back(newColumn[i]); else data[i].insert(data[i].begin(), newColumn[i]);`. -/
def addColumnLoop (newColumn : List ℚ) (atRight : Bool) (n : Nat) (data : List (List ℚ)) :
    List (List ℚ) :=
  forRange n (fun i data =>
    data.set i (if atRight then data.getD i [] ++ [newColumn.getD i 0]
      else newColumn.getD i 0 :: data.getD i [])) data

/-- The in-place `Matrix::addColumn(newColumn, atRight)`: the outcome of the call and the
matrix after it. -/
def addColumn (self : Matrix) (newColumn : List ℚ) (atRight : Bool) :
    Except MatrixError Unit × Matrix :=
  if newColumn.length ≠ self.rows then (.error .newColumnSize, self)
  else
    (.ok (), { data := addColumnLoop newColumn atRight self.rows self.data,
               rows := self.rows, cols := self.cols + 1 })

/-- The in-place `Matrix::removeRow(fromBottom)`: the outcome of the call and the matrix
after it.  `pop_back` drops the last row, `erase(data.begin())` the first. -/
def removeRow (self : Matrix) (fromBottom : Bool) : Except MatrixError Unit × Matrix :=
  if self.rows = 0 then (.error .removeRowEmpty, self)
  else
    (.ok (), { data := if fromBottom then self.data.dropLast else self.data.tail,
               rows := self.rows - 1, cols := self.cols })

/-- The loop of `removeColumn` over the first `n` rows:
`if (fromRight) data[i].pop_back(); else data[i].erase(data[i].begin());`. -/
def removeColumnLoop (fromRight : Bool) (n : Nat) (data : List (List ℚ)) : List (List ℚ) :=
  forRange n (fun i data =>
    data.set i (if fromRight then (data.getD i []).dropLast else (data.getD i []).tail)) data

/-- The in-place `Matrix::removeColumn(fromRight)`: the outcome of the call and the matrix
after it. -/
def removeColumn (self : Matrix) (fromRight : Bool) : Except MatrixError Unit × Matrix :=
  if self.cols = 0 then (.error .removeColumnEmpty, self)
  else
    (.ok (), { data := removeColumnLoop fromRight self.rows self.data,
               rows := self.rows, cols := self.cols - 1 })

/-- The constructor `SquareMatrix(size_t size) : Matrix(size, size)`. -/
def squareMatrix (size : Nat) : Matrix :=
  construct size size

/-- The constructor `SquareMatrixIdentity(size_t size)`: a `SquareMatrix(size)` whose
diagonal is then set by `data[i][i] = 1.0`. -/
def squareMatrixIdentity (size : Nat) : Matrix :=
  forRange size (fun i m => m.set i i 1) (squareMatrix size)

/-- The fill-assignment `SquareMatrix::operator=(double value)`: the matrix after
`data[i][j] = value` for all `i < rows`, `j < cols`; the call returns `*this`, this matrix. -/
def fillAssign (self : Matrix) (value : ℚ) : Matrix :=
  forRange self.rows (fun i m =>
    forRange self.cols (fun j m => m.set i j value) m) self

/-- The minor in the words of the specification: the matrix obtained from `m` by deleting
row `i` and column `j`, the remaining rows and columns in their original order. -/
def deleteRowColumn (m : Matrix) (i j : Nat) : Matrix :=
  { data := (m.data.eraseIdx i).map (fun row => row.eraseIdx j),
    rows := m.rows - 1, cols := m.cols - 1 }

/-- A well-formed matrix with `r` rows and `c` columns. -/
def HasShape (m : Matrix) (r c : Nat) : Prop :=
  m.WellFormed ∧ m.rows = r ∧ m.cols = c

/-- The `k`-th index left once the index `skip` has been skipped. -/
def skipIdx (skip k : Nat) : Nat :=
  if k < skip then k else k + 1

/-- The number returned by `determinant()`, with `0` standing for a thrown exception. -/
def determinantValue (m : Matrix) : ℚ :=
  match determinant m with
  | .ok d => d
  | .error _ => 0

/-- The entries of an `n x n` matrix read as a Mathlib matrix. -/
def toRatMatrix (n : Nat) (m : Matrix) : RatMatrix n :=
  fun i j => m.get i.val j.val

end Matrix

/-! ## Entries in double precision

The definitions above take the entries as exact rationals.  The definitions below run the same
code of `determinant`, `operator*(double)` and `inverse` on IEEE 754 binary64 values, with
rounding to nearest (ties to even), overflow to infinity, signed zeros and NaN. -/

/-- The values of a `double`: the finite numbers (`finite 0` is `+0.0`), `-0.0`, the two
infinities and NaN.  Every finite `double` is a `finite q`; the results of the arithmetic
operations are rounded to binary64 by `round`. -/
inductive Double where
  | finite (q : ℚ)
  | negZero
  | posInf
  | negInf
  | nan
  deriving DecidableEq, Repr

namespace Double

/-- The test `std::isnan(x)`. -/
def isNaN : Double → Bool
  | nan => true
  | _ => false

/-- The value is `+inf` or `-inf`. -/
def isInfinite : Double → Bool
  | posInf => true
  | negInf => true
  | _ => false

/-- The comparison `x == 0`: true for `+0.0` and `-0.0`, false for every other value, NaN
included. -/
def isZero : Double → Bool
  | finite q => decide (q = 0)
  | negZero => true
  | _ => false

/-- The sign bit of a value that is not NaN. -/
def isNegative : Double → Bool
  | finite q => decide (q < 0)
  | negZero => true
  | negInf => true
  | _ => false

/-- The absolute value of a finite value (`0` for the others). -/
def magnitude : Double → ℚ
  | finite q => |q|
  | _ => 0

/-- The number denoted by a finite value (`0` for the others). -/
def value : Double → ℚ
  | finite q => q
  | _ => 0

/-- The infinity of the given sign. -/
def signedInf (negative : Bool) : Double :=
  if negative then negInf else posInf

/-- The zero of the given sign. -/
def signedZero (negative : Bool) : Double :=
  if negative then negZero else finite 0

/-- Magnitudes from `2^1024 - 2^970` on (half an ulp above the largest finite `double`,
`2^1024 - 2^971`) round to infinity. -/
def overflowThreshold : ℚ :=
  2 ^ 1024 - 2 ^ 970

/-- Rounding of a non-negative magnitude to the nearest binary64 magnitude, ties to even:
53 significant bits, exponent at least `-1022` (subnormal numbers below). -/
def roundMagnitude (m : ℚ) : ℚ :=
  if m = 0 then 0
  else
    let e : ℤ := max (Int.log 2 m) (-1022)
    let ulp : ℚ := (2 : ℚ) ^ (e - 52)
    let n : ℚ := m / ulp
    let f : ℤ := ⌊n⌋
    let r : ℤ :=
      if n - f < 1 / 2 then f
      else if 1 / 2 < n - f then f + 1
      else if f % 2 = 0 then f else f + 1
    r * ulp

/-- The `double` delivered for an exact result of the given sign and magnitude. -/
def round (negative : Bool) (m : ℚ) : Double :=
  if overflowThreshold ≤ m then signedInf negative
  else if roundMagnitude m = 0 then signedZero negative
  else finite (if negative then -roundMagnitude m else roundMagnitude m)

/-- The unary minus. -/
def neg : Double → Double
  | finite q => if q = 0 then negZero else finite (-q)
  | negZero => finite 0
  | posInf => negInf
  | negInf => posInf
  | nan => nan

/-- The product `x * y`. -/
def mul (x y : Double) : Double :=
  if x.isNaN || y.isNaN then nan
  else if x.isInfinite then
    (if y.isZero then nan else signedInf (x.isNegative != y.isNegative))
  else if y.isInfinite then
    (if x.isZero then nan else signedInf (x.isNegative != y.isNegative))
  else round (x.isNegative != y.isNegative) (x.magnitude * y.magnitude)

/-- The quotient `x / y`. -/
def div (x y : Double) : Double :=
  if x.isNaN || y.isNaN then nan
  else if x.isInfinite then
    (if y.isInfinite then nan else signedInf (x.isNegative != y.isNegative))
  else if y.isInfinite then signedZero (x.isNegative != y.isNegative)
  else if y.isZero then
    (if x.isZero then nan else signedInf (x.isNegative != y.isNegative))
  else round (x.isNegative != y.isNegative) (x.magnitude / y.magnitude)

/-- The sum `x + y`. -/
def add (x y : Double) : Double :=
  if x.isNaN || y.isNaN then nan
  else if x.isInfinite then
    (if y.isInfinite && (x.isNegative != y.isNegative) then nan else x)
  else if y.isInfinite then y
  else if x.isZero && y.isZero then signedZero (x.isNegative && y.isNegative)
  else if x.value + y.value = 0 then finite 0
  else round (decide (x.value + y.value < 0)) |x.value + y.value|

/-- The difference `x - y`. -/
def sub (x y : Double) : Double :=
  add x (neg y)

end Double

/-- The data members of `class Matrix` with `double` entries. -/
structure DoubleMatrix where
  data : List (List Double)
  rows : Nat
  cols : Nat
  deriving DecidableEq, Repr

namespace DoubleMatrix

/-- The constructor `Matrix(size_t rows, size_t cols)`. -/
def construct (rows cols : Nat) : DoubleMatrix :=
  { data := List.replicate rows (List.replicate cols (.finite 0)), rows := rows, cols := cols }

/-- The read access `data[i][j]`; an out-of-range read (undefined in C++) yields `+0.0`. -/
def get (m : DoubleMatrix) (i j : Nat) : Double :=
  (m.data.getD i []).getD j (.finite 0)

/-- The write access `data[i][j] = v`; an out-of-range write (undefined in C++) is dropped. -/
def set (m : DoubleMatrix) (i j : Nat) (v : Double) : DoubleMatrix :=
  { m with data := m.data.set i ((m.data.getD i []).set j v) }

/-- Multiplication by a scalar, `Matrix::operator*(double)`. -/
def scale (self : DoubleMatrix) (scalar : Double) : DoubleMatrix :=
  forRange self.rows (fun i result =>
    forRange self.cols (fun j result =>
      result.set i j ((self.get i j).mul scalar)) result)
    (construct self.rows self.cols)

/-- The column-skipping copy loop shared by `determinant` and `inverse`. -/
def copyRowSkipping (m : DoubleMatrix) (srcRow skip dstRow : Nat) (subMatrix : DoubleMatrix) :
    DoubleMatrix :=
  (forRange m.cols (fun mat_j (st : DoubleMatrix × Nat) =>
    if mat_j = skip then st
    else (st.1.set dstRow st.2 (m.get srcRow mat_j), st.2 + 1)) (subMatrix, 0)).1

/-- The minor built in `determinant` for column `p`. -/
def determinantSubMatrix (m : DoubleMatrix) (p : Nat) : DoubleMatrix :=
  (List.range' 1 (m.rows - 1)).foldl (fun subMatrix i =>
    copyRowSkipping m i p (i - 1) subMatrix) (construct (m.rows - 1) (m.cols - 1))

/-- The body of `Matrix::determinant` on `double` entries; the first argument bounds the
recursion depth and is the number of rows.  `double det = 0` starts the sum at `+0.0`, and
the sign `(p % 2 == 0 ? 1 : -1)` is converted to `1.0` or `-1.0`. -/
def determinantAux : Nat → DoubleMatrix → Except MatrixError Double
  | 0, m =>
    if m.rows ≠ m.cols then .error .determinantNotSquare
    else if m.rows = 1 then .ok (m.get 0 0)
    else if m.rows = 2 then
      .ok (((m.get 0 0).mul (m.get 1 1)).sub ((m.get 0 1).mul (m.get 1 0)))
    else .ok (.finite 0)
  | depth + 1, m =>
    if m.rows ≠ m.cols then .error .determinantNotSquare
    else if m.rows = 1 then .ok (m.get 0 0)
    else if m.rows = 2 then
      .ok (((m.get 0 0).mul (m.get 1 1)).sub ((m.get 0 1).mul (m.get 1 0)))
    else
      (List.range m.cols).foldlM (fun det p =>
        match determinantAux depth (determinantSubMatrix m p) with
        | .error e => .error e
        | .ok d =>
          .ok (det.add (((m.get 0 p).mul d).mul
            (if p % 2 = 0 then .finite 1 else .finite (-1))))) (.finite 0)

/-- The determinant on `double` entries, `Matrix::determinant`. -/
def determinant (m : DoubleMatrix) : Except MatrixError Double :=
  determinantAux m.rows m

/-- The minor built in `inverse` for the cell `(i, j)`. -/
def inverseSubMatrix (m : DoubleMatrix) (i j : Nat) : DoubleMatrix :=
  (forRange m.rows (fun mat_i (st : DoubleMatrix × Nat) =>
    if mat_i = i then st
    else (copyRowSkipping m mat_i j st.2 st.1, st.2 + 1))
    (construct (m.rows - 1) (m.cols - 1), 0)).1

/-- The adjugate loops of `inverse`: `adj(j, i) = subMatrix.determinant() * sign(i + j)`. -/
def adjugateLoop (m : DoubleMatrix) : Except MatrixError DoubleMatrix :=
  (List.range m.rows).foldlM (fun adj i =>
    (List.range m.cols).foldlM (fun adj j =>
      match determinant (inverseSubMatrix m i j) with
      | .error e => .error e
      | .ok d =>
        .ok (adj.set j i (d.mul (if (i + j) % 2 = 0 then .finite 1 else .finite (-1))))) adj)
    (construct m.rows m.cols)

/-- Inversion on `double` entries, `Matrix::inverse`: the test `det == 0`, then
`adj * (1 / det)` with `1 / det` computed in `double`. -/
def inverse (m : DoubleMatrix) : Except MatrixError DoubleMatrix :=
  match determinant m with
  | .error e => .error e
  | .ok det =>
    if det.isZero then .error .nonInvertible
    else if m.rows ≠ m.cols then .error .inversionNotSquare
    else
      match adjugateLoop m with
      | .error e => .error e
      | .ok adj => .ok (adj.scale (Double.div (.finite 1) det))

end DoubleMatrix

end md

namespace md

/-! ## Loops -/

theorem forRange_zero {σ : Type} (body : Nat → σ → σ) (s : σ) : forRange 0 body s = s := rfl

theorem forRange_succ {σ : Type} (n : Nat) (body : Nat → σ → σ) (s : σ) :
    forRange (n + 1) body s = body n (forRange n body s) := by
  simp [forRange, List.range_succ, List.foldl_append]

/-- Loop invariant rule for `forRange`. -/
theorem forRange_induction {σ : Type} (P : Nat → σ → Prop) (n : Nat) (body : Nat → σ → σ)
    (s : σ) (h0 : P 0 s) (hstep : ∀ i t, i < n → P i t → P (i + 1) (body i t)) :
    P n (forRange n body s) := by
  induction n with
  | zero => simpa [forRange_zero] using h0
  | succ k ih =>
    rw [forRange_succ]
    exact hstep k _ (Nat.lt_succ_self k)
      (ih (fun i t hi hP => hstep i t (Nat.lt_succ_of_lt hi) hP))

namespace Matrix

/-! ## Element access -/

theorem rows_construct (r c : Nat) : (construct r c).rows = r := rfl

theorem cols_construct (r c : Nat) : (construct r c).cols = c := rfl

theorem wellFormed_construct (r c : Nat) : (construct r c).WellFormed := by
  constructor
  · simp [construct]
  · intro row hrow
    simp only [construct, List.mem_replicate] at hrow
    simp [hrow.2, construct]

theorem get_construct (r c i j : Nat) : (construct r c).get i j = 0 := by
  simp only [get, construct, List.getD_eq_getElem?_getD, List.getElem?_replicate]
  split_ifs <;> simp [List.getElem?_replicate]
  split_ifs <;> simp

theorem rows_set (m : Matrix) (i j : Nat) (v : ℚ) : (m.set i j v).rows = m.rows := rfl

theorem cols_set (m : Matrix) (i j : Nat) (v : ℚ) : (m.set i j v).cols = m.cols := rfl

theorem rowLength_of_wellFormed {m : Matrix} (h : m.WellFormed) {i : Nat} (hi : i < m.rows) :
    (m.data.getD i []).length = m.cols := by
  have hi2 : i < m.data.length := by rw [h.1]; exact hi
  rw [List.getD_eq_getElem _ _ hi2]
  exact h.2 _ (List.getElem_mem _)

theorem wellFormed_set {m : Matrix} (h : m.WellFormed) (i j : Nat) (v : ℚ) :
    (m.set i j v).WellFormed := by
  constructor
  · simpa [set] using h.1
  · intro row hrow
    by_cases hi : i < m.data.length
    · rcases List.mem_or_eq_of_mem_set hrow with hmem | heq
      · exact h.2 row hmem
      · subst heq
        simp only [List.length_set, set]
        rw [List.getD_eq_getElem _ _ hi]
        exact h.2 _ (List.getElem_mem _)
    · simp only [set] at hrow
      rw [List.set_eq_of_length_le (by omega)] at hrow
      exact h.2 row hrow

/-- Reading after a write: the written cell holds the new value, every other cell is unchanged. -/
theorem get_set {m : Matrix} (h : m.WellFormed) (i j : Nat) (v : ℚ) (x y : Nat) :
    (m.set i j v).get x y = if x = i ∧ y = j ∧ i < m.rows ∧ j < m.cols then v else m.get x y := by
  by_cases hi : i < m.rows
  · have hlen := rowLength_of_wellFormed h hi
    have hi2 : i < m.data.length := by rw [h.1]; exact hi
    simp only [List.getD_eq_getElem?_getD] at hlen
    simp only [get, set, List.getD_eq_getElem?_getD, List.getElem?_set]
    by_cases hx : x = i
    · subst hx
      simp only [if_true, hi2, Option.getD_some, List.getElem?_set, hlen, true_and, hi]
      by_cases hy : y = j
      · subst hy
        by_cases hj : y < m.cols
        · simp [hj]
        · simp only [hj, if_false, and_false]
          rw [List.getElem?_eq_none (by omega)]
          simp
      · have : ¬ j = y := fun e => hy e.symm
        simp [hy, this]
    · have : ¬ i = x := fun e => hx e.symm
      simp [hx, this]
  · have hi2 : m.data.length ≤ i := by rw [h.1]; omega
    simp only [get, set]
    rw [List.set_eq_of_length_le hi2]
    simp [hi]

/-- Two well-formed matrices of the same shape with the same entries are equal. -/
theorem ext_get {a b : Matrix} (ha : a.WellFormed) (hb : b.WellFormed)
    (hr : a.rows = b.rows) (hc : a.cols = b.cols)
    (h : ∀ i j, i < a.rows → j < a.cols → a.get i j = b.get i j) : a = b := by
  obtain ⟨ad, ar, ac⟩ := a
  obtain ⟨bd, br, bc⟩ := b
  simp only at hr hc h
  subst hr hc
  simp only [Matrix.mk.injEq, and_true]
  obtain ⟨ha1, ha2⟩ := ha
  obtain ⟨hb1, hb2⟩ := hb
  simp only at ha1 ha2 hb1 hb2
  apply List.ext_getElem (by omega)
  intro i h1 h2
  have hra : ad[i].length = ac := ha2 _ (List.getElem_mem _)
  have hrb : bd[i].length = ac := hb2 _ (List.getElem_mem _)
  apply List.ext_getElem (by omega)
  intro j h3 h4
  have := h i j (by omega) (by omega)
  simpa [get, List.getD_eq_getElem?_getD, List.getElem?_eq_getElem h1,
    List.getElem?_eq_getElem h2, List.getElem?_eq_getElem h3, List.getElem?_eq_getElem h4]
    using this

end Matrix
end md

namespace md
namespace Matrix

/-! ## Nested loops that write every cell once -/

theorem hasShape_construct (r c : Nat) : (construct r c).HasShape r c :=
  ⟨wellFormed_construct r c, rfl, rfl⟩

theorem hasShape_set {m : Matrix} {r c : Nat} (h : m.HasShape r c) (i j : Nat) (v : ℚ) :
    (m.set i j v).HasShape r c :=
  ⟨wellFormed_set h.1 i j v, h.2.1, h.2.2⟩

theorem get_set_of_hasShape {m : Matrix} {r c : Nat} (h : m.HasShape r c) {i j : Nat}
    (hi : i < r) (hj : j < c) (v : ℚ) (x y : Nat) :
    (m.set i j v).get x y = if (x, y) = (i, j) then v else m.get x y := by
  rw [get_set h.1]
  simp only [Prod.mk.injEq, h.2.1, h.2.2, hi, hj, and_true]

/-- A double loop whose body at `(i, j)` rewrites exactly the cell `key i j`, distinct cells
for distinct `(i, j)`, rewrites each key cell once from its initial value and nothing else. -/
theorem nestedLoop_spec (R C r c : Nat) (key : Nat → Nat → Nat × Nat)
    (F : Nat → Nat → ℚ → ℚ) (body : Nat → Nat → Matrix → Matrix) (init : Matrix)
    (hinit : init.HasShape R C)
    (hkey : ∀ i j i' j', i < r → j < c → i' < r → j' < c → key i j = key i' j' →
      i = i' ∧ j = j')
    (hbody : ∀ i j t, i < r → j < c → t.HasShape R C →
      (body i j t).HasShape R C ∧
        ∀ x y, (body i j t).get x y = if (x, y) = key i j then F i j (t.get x y) else t.get x y) :
    (forRange r (fun i t => forRange c (fun j t => body i j t) t) init).HasShape R C ∧
    (∀ i j, i < r → j < c →
      (forRange r (fun i t => forRange c (fun j t => body i j t) t) init).get
        (key i j).1 (key i j).2 = F i j (init.get (key i j).1 (key i j).2)) ∧
    (∀ x y, (∀ i j, i < r → j < c → key i j ≠ (x, y)) →
      (forRange r (fun i t => forRange c (fun j t => body i j t) t) init).get x y
        = init.get x y) := by
  have houter := forRange_induction
    (fun k t => t.HasShape R C ∧
      (∀ i j, i < r → j < c → t.get (key i j).1 (key i j).2 =
        if i < k then F i j (init.get (key i j).1 (key i j).2)
        else init.get (key i j).1 (key i j).2) ∧
      (∀ x y, (∀ i j, i < r → j < c → key i j ≠ (x, y)) → t.get x y = init.get x y))
    r (fun i t => forRange c (fun j t => body i j t) t) init
    ⟨hinit, fun i j _ _ => by simp, fun x y _ => rfl⟩
    (by
      intro k t hk ⟨hshape, hdone, hrest⟩
      have hinner := forRange_induction
        (fun l u => u.HasShape R C ∧
          (∀ i j, i < r → j < c → u.get (key i j).1 (key i j).2 =
            if i < k ∨ (i = k ∧ j < l) then F i j (init.get (key i j).1 (key i j).2)
            else init.get (key i j).1 (key i j).2) ∧
          (∀ x y, (∀ i j, i < r → j < c → key i j ≠ (x, y)) → u.get x y = init.get x y))
        c (fun j u => body k j u) t
        ⟨hshape, fun i j hi hj => by
            rw [hdone i j hi hj]
            have : (i < k ∨ (i = k ∧ j < 0)) ↔ i < k := by omega
            simp only [this], hrest⟩
        (by
          intro l u hl ⟨hs, hd, hr⟩
          obtain ⟨hs2, hget⟩ := hbody k l u hk hl hs
          refine ⟨hs2, ?_, ?_⟩
          · intro i j hi hj
            rw [hget]
            by_cases hsame : ((key i j).1, (key i j).2) = key k l
            · have hkk : key i j = key k l := hsame
              obtain ⟨rfl, rfl⟩ := hkey i j k l hi hj hk hl hkk
              rw [if_pos hsame, hd i j hi hj]
              have h1 : ¬ (i < i ∨ (i = i ∧ j < j)) := by omega
              have h2 : (i < i ∨ (i = i ∧ j < j + 1)) := by omega
              rw [if_neg h1, if_pos h2]
            · rw [if_neg hsame, hd i j hi hj]
              have hne : ¬ (i = k ∧ j = l) := by
                rintro ⟨rfl, rfl⟩
                exact hsame rfl
              have : (i < k ∨ (i = k ∧ j < l + 1)) ↔ (i < k ∨ (i = k ∧ j < l)) := by omega
              simp only [this]
          · intro x y hxy
            rw [hget, if_neg (fun e => hxy k l hk hl e.symm), hr x y hxy])
      obtain ⟨hs, hd, hr⟩ := hinner
      refine ⟨hs, ?_, hr⟩
      intro i j hi hj
      rw [hd i j hi hj]
      have : (i < k ∨ (i = k ∧ j < c)) ↔ i < k + 1 := by omega
      simp only [this])
  obtain ⟨hs, hd, hr⟩ := houter
  refine ⟨hs, ?_, hr⟩
  intro i j hi hj
  rw [hd i j hi hj, if_pos hi]

/-- The row-major filling loop shared by `operator+`, `operator-` and `operator*(double)`:
the result has the shape of the fresh matrix and holds `f i j` in cell `(i, j)`. -/
theorem fillLoop_spec (r c : Nat) (f : Nat → Nat → ℚ) :
    (forRange r (fun i result => forRange c (fun j result => result.set i j (f i j)) result)
      (construct r c)).HasShape r c ∧
    ∀ i j, i < r → j < c →
      (forRange r (fun i result => forRange c (fun j result => result.set i j (f i j)) result)
        (construct r c)).get i j = f i j := by
  have h := nestedLoop_spec r c r c (fun i j => (i, j)) (fun i j _ => f i j)
    (fun i j t => t.set i j (f i j)) (construct r c) (hasShape_construct r c)
    (by intro i j i' j' _ _ _ _ e; simpa using e)
    (by
      intro i j t hi hj ht
      exact ⟨hasShape_set ht i j _, fun x y => get_set_of_hasShape ht hi hj _ x y⟩)
  exact ⟨h.1, fun i j hi hj => h.2.1 i j hi hj⟩

end Matrix
end md

namespace md
namespace Matrix

/-! ## Specifications of the arithmetic operators -/

theorem add_spec (A B : Matrix) (hr : A.rows = B.rows) (hc : A.cols = B.cols) :
    ∃ S, add A B = .ok S ∧ S.HasShape A.rows A.cols ∧
      ∀ i j, i < A.rows → j < A.cols → S.get i j = A.get i j + B.get i j := by
  have h := fillLoop_spec A.rows A.cols (fun i j => A.get i j + B.get i j)
  refine ⟨_, ?_, h.1, h.2⟩
  simp [add, hr, hc]

theorem sub_spec (A B : Matrix) (hr : A.rows = B.rows) (hc : A.cols = B.cols) :
    ∃ D, sub A B = .ok D ∧ D.HasShape A.rows A.cols ∧
      ∀ i j, i < A.rows → j < A.cols → D.get i j = A.get i j - B.get i j := by
  have h := fillLoop_spec A.rows A.cols (fun i j => A.get i j - B.get i j)
  refine ⟨_, ?_, h.1, h.2⟩
  simp [sub, hr, hc]

theorem scale_spec (A : Matrix) (s : ℚ) :
    (A.scale s).HasShape A.rows A.cols ∧
      ∀ i j, i < A.rows → j < A.cols → (A.scale s).get i j = A.get i j * s :=
  fillLoop_spec A.rows A.cols (fun i j => A.get i j * s)

theorem transpose_spec (A : Matrix) :
    A.transpose.HasShape A.cols A.rows ∧
      ∀ i j, i < A.rows → j < A.cols → A.transpose.get j i = A.get i j := by
  have h := nestedLoop_spec A.cols A.rows A.rows A.cols (fun i j => (j, i))
    (fun i j _ => A.get i j) (fun i j t => t.set j i (A.get i j)) (construct A.cols A.rows)
    (hasShape_construct _ _)
    (by intro i j i' j' _ _ _ _ e; simp only [Prod.mk.injEq] at e; exact ⟨e.2, e.1⟩)
    (by
      intro i j t hi hj ht
      exact ⟨hasShape_set ht j i _, fun x y => get_set_of_hasShape ht hj hi _ x y⟩)
  exact ⟨h.1, fun i j hi hj => h.2.1 i j hi hj⟩

/-- The innermost loop of `operator*`: `result(i, j) += g k` for `k < n`. -/
theorem accumulate_spec {t : Matrix} {R C : Nat} (ht : t.HasShape R C) {i j : Nat}
    (hi : i < R) (hj : j < C) (n : Nat) (g : Nat → ℚ) :
    (forRange n (fun k u => u.set i j (u.get i j + g k)) t).HasShape R C ∧
    ∀ x y, (forRange n (fun k u => u.set i j (u.get i j + g k)) t).get x y =
      if (x, y) = (i, j) then t.get x y + ∑ k in Finset.range n, g k else t.get x y := by
  refine forRange_induction
    (fun l u => u.HasShape R C ∧ ∀ x y, u.get x y =
      if (x, y) = (i, j) then t.get x y + ∑ k in Finset.range l, g k else t.get x y)
    n _ t ⟨ht, fun x y => by simp⟩ ?_
  intro l u _ ⟨hs, hu⟩
  refine ⟨hasShape_set hs i j _, fun x y => ?_⟩
  rw [get_set_of_hasShape hs hi hj]
  by_cases hxy : (x, y) = (i, j)
  · simp only [Prod.mk.injEq] at hxy
    obtain ⟨rfl, rfl⟩ := hxy
    rw [if_pos rfl, if_pos rfl, hu, if_pos rfl, Finset.sum_range_succ]
    ring
  · rw [if_neg hxy, if_neg hxy, hu, if_neg hxy]

theorem mul_spec (A B : Matrix) (h : A.cols = B.rows) :
    ∃ P, mul A B = .ok P ∧ P.HasShape A.rows B.cols ∧
      ∀ i j, i < A.rows → j < B.cols →
        P.get i j = ∑ k in Finset.range A.cols, A.get i k * B.get k j := by
  have hl := nestedLoop_spec A.rows B.cols A.rows B.cols (fun i j => (i, j))
    (fun i j v => v + ∑ k in Finset.range A.cols, A.get i k * B.get k j)
    (fun i j t => forRange A.cols
      (fun k result => result.set i j (result.get i j + A.get i k * B.get k j)) t)
    (construct A.rows B.cols) (hasShape_construct _ _)
    (by intro i j i' j' _ _ _ _ e; simpa using e)
    (by
      intro i j t hi hj ht
      exact accumulate_spec ht hi hj A.cols (fun k => A.get i k * B.get k j))
  refine ⟨_, ?_, hl.1, ?_⟩
  · simp [mul, h]
  · intro i j hi hj
    have := hl.2.1 i j hi hj
    simp only [get_construct, zero_add] at this
    exact this

end Matrix

/-! ## Claims on the arithmetic operators -/

/-- C6: for well-formed matrices `A` and `B` of the same shape, `(A + B) - B` succeeds and
is `A` itself: same `rows`, same `cols`, same stored elements. -/
theorem add_then_sub_cancel (A B : Matrix) (hA : A.WellFormed) (_hB : B.WellFormed)
    (hr : A.rows = B.rows) (hc : A.cols = B.cols) :
    ∃ S, Matrix.add A B = .ok S ∧ Matrix.sub S B = .ok A := by
  obtain ⟨S, hS, hshape, hget⟩ := Matrix.add_spec A B hr hc
  obtain ⟨D, hD, hDshape, hDget⟩ :=
    Matrix.sub_spec S B (hshape.2.1.trans hr) (hshape.2.2.trans hc)
  refine ⟨S, hS, ?_⟩
  rw [hD]
  congr 1
  rw [hshape.2.1, hshape.2.2] at hDshape hDget
  apply Matrix.ext_get hDshape.1 hA hDshape.2.1 hDshape.2.2
  intro i j hi hj
  rw [hDshape.2.1] at hi
  rw [hDshape.2.2] at hj
  rw [hDget i j hi hj, hget i j hi hj]
  ring

end md

namespace md

/-- C7: for every well-formed matrix `A` (zero rows or zero columns included),
`transpose()` returns the well-formed `cols x rows` matrix with `result[j][i] = A[i][j]`, and
transposing twice gives back `A` exactly. -/
theorem transpose_transpose (A : Matrix) (hA : A.WellFormed) :
    (A.transpose.WellFormed ∧ A.transpose.rows = A.cols ∧ A.transpose.cols = A.rows ∧
      ∀ i j, i < A.rows → j < A.cols → A.transpose.get j i = A.get i j) ∧
    A.transpose.transpose = A := by
  obtain ⟨hs, hg⟩ := Matrix.transpose_spec A
  obtain ⟨hs2, hg2⟩ := Matrix.transpose_spec A.transpose
  refine ⟨⟨hs.1, hs.2.1, hs.2.2, hg⟩, ?_⟩
  rw [hs.2.1, hs.2.2] at hs2 hg2
  apply Matrix.ext_get hs2.1 hA hs2.2.1 hs2.2.2
  intro i j hi hj
  rw [hs2.2.1] at hi
  rw [hs2.2.2] at hj
  rw [hg2 j i hj hi, hg i j hi hj]

/-- C8: for well-formed `A`, `B` with `A.cols == B.rows` and every scalar `s`, the products
`s * (A * B)`, `(s * A) * B` and `A * (s * B)` are all defined and equal, and
`scalar * matrix` is `matrix * scalar`. -/
theorem scalar_mul_assoc (A B : Matrix) (s : ℚ) (_hA : A.WellFormed) (_hB : B.WellFormed)
    (h : A.cols = B.rows) :
    (∃ AB P Q, Matrix.mul A B = .ok AB ∧ Matrix.mul (Matrix.scalarMul s A) B = .ok P ∧
      Matrix.mul A (Matrix.scalarMul s B) = .ok Q ∧
      Matrix.scalarMul s AB = P ∧ P = Q) ∧
    ∀ (M : Matrix) (t : ℚ), Matrix.scalarMul t M = M.scale t := by
  refine ⟨?_, fun M t => rfl⟩
  obtain ⟨AB, hAB, hABs, hABg⟩ := Matrix.mul_spec A B h
  obtain ⟨hsA, hsAg⟩ := Matrix.scale_spec A s
  obtain ⟨hsB, hsBg⟩ := Matrix.scale_spec B s
  obtain ⟨hsAB, hsABg⟩ := Matrix.scale_spec AB s
  obtain ⟨P, hP, hPs, hPg⟩ := Matrix.mul_spec (A.scale s) B (hsA.2.2.trans h)
  obtain ⟨Q, hQ, hQs, hQg⟩ := Matrix.mul_spec A (B.scale s) (h.trans hsB.2.1.symm)
  rw [hsA.2.1, hsA.2.2] at hPg
  rw [hsA.2.1] at hPs
  rw [hsB.2.2] at hQs hQg
  rw [hABs.2.1, hABs.2.2] at hsAB hsABg
  have hPval : ∀ i j, i < A.rows → j < B.cols →
      P.get i j = (∑ k in Finset.range A.cols, A.get i k * B.get k j) * s := by
    intro i j hi hj
    rw [hPg i j hi hj, Finset.sum_mul]
    apply Finset.sum_congr rfl
    intro k hk
    rw [hsAg i k hi (Finset.mem_range.mp hk)]
    ring
  have hQval : ∀ i j, i < A.rows → j < B.cols →
      Q.get i j = (∑ k in Finset.range A.cols, A.get i k * B.get k j) * s := by
    intro i j hi hj
    rw [hQg i j hi hj, Finset.sum_mul]
    apply Finset.sum_congr rfl
    intro k hk
    rw [hsBg k j (h ▸ Finset.mem_range.mp hk) hj]
    ring
  refine ⟨AB, P, Q, hAB, hP, hQ, ?_, ?_⟩
  · apply Matrix.ext_get hsAB.1 hPs.1 (hsAB.2.1.trans hPs.2.1.symm)
      (hsAB.2.2.trans hPs.2.2.symm)
    intro i j hi hj
    rw [hsAB.2.1] at hi
    rw [hsAB.2.2] at hj
    show (AB.scale s).get i j = P.get i j
    rw [hsABg i j hi hj, hABg i j hi hj, hPval i j hi hj]
  · apply Matrix.ext_get hPs.1 hQs.1 (hPs.2.1.trans hQs.2.1.symm) (hPs.2.2.trans hQs.2.2.symm)
    intro i j hi hj
    rw [hPs.2.1] at hi
    rw [hPs.2.2] at hj
    rw [hPval i j hi hj, hQval i j hi hj]

/-- C10: `A + B` and `A - B` raise the dimension-mismatch error exactly when
`A.rows != B.rows` or `A.cols != B.cols`; otherwise each returns a well-formed matrix of the
shape of `A` whose entry `(i, j)` is `A[i][j] + B[i][j]`, respectively `A[i][j] - B[i][j]`. -/
theorem add_sub_error_or_elementwise (A B : Matrix) :
    ((A.rows ≠ B.rows ∨ A.cols ≠ B.cols) ∧
      Matrix.add A B = .error .dimensionsMustBeSame ∧
      Matrix.sub A B = .error .dimensionsMustBeSame) ∨
    ((A.rows = B.rows ∧ A.cols = B.cols) ∧ ∃ S D,
      Matrix.add A B = .ok S ∧ Matrix.sub A B = .ok D ∧
      (S.WellFormed ∧ S.rows = A.rows ∧ S.cols = A.cols) ∧
      (D.WellFormed ∧ D.rows = A.rows ∧ D.cols = A.cols) ∧
      ∀ i j, i < A.rows → j < A.cols →
        S.get i j = A.get i j + B.get i j ∧ D.get i j = A.get i j - B.get i j) := by
  by_cases h : A.rows = B.rows ∧ A.cols = B.cols
  · right
    obtain ⟨S, hS, hSs, hSg⟩ := Matrix.add_spec A B h.1 h.2
    obtain ⟨D, hD, hDs, hDg⟩ := Matrix.sub_spec A B h.1 h.2
    exact ⟨h, S, D, hS, hD, hSs, hDs, fun i j hi hj => ⟨hSg i j hi hj, hDg i j hi hj⟩⟩
  · left
    have h2 : A.rows ≠ B.rows ∨ A.cols ≠ B.cols := by
      by_contra hc
      push_neg at hc
      exact h hc
    exact ⟨h2, by simp [Matrix.add, h2], by simp [Matrix.sub, h2]⟩

end md

namespace md

/-! ## Loops that may throw -/

/-- A throwing loop whose body always succeeds is the plain loop over the returned values. -/
theorem foldlM_ok_eq_foldl {β : Type} (l : List Nat) (f : β → Nat → Except MatrixError β)
    (g : β → Nat → β) (hf : ∀ acc p, p ∈ l → f acc p = .ok (g acc p)) (init : β) :
    l.foldlM f init = .ok (l.foldl g init) := by
  induction l generalizing init with
  | nil => rfl
  | cons a l ih =>
    rw [List.foldlM_cons, List.foldl_cons, hf init a (List.mem_cons_self a l)]
    exact ih (fun acc p hp => hf acc p (List.mem_cons_of_mem a hp)) _

namespace Matrix

/-! ## The minors built by `determinant` and `inverse` -/

theorem skipIdx_ne (skip k : Nat) : skipIdx skip k ≠ skip := by
  unfold skipIdx
  split_ifs <;> omega

/-- The column-skipping copy loop fills row `dstRow` of the minor with row `srcRow` of `m`
without column `skip`, and leaves the other rows of the minor as they were. -/
theorem copyRowSkipping_spec (m : Matrix) (srcRow skip dstRow : Nat) {t : Matrix} {R C : Nat}
    (ht : t.HasShape R C) (hd : dstRow < R) (hC : m.cols = C + 1) (hskip : skip < m.cols) :
    (copyRowSkipping m srcRow skip dstRow t).HasShape R C ∧
    ∀ x y, (copyRowSkipping m srcRow skip dstRow t).get x y =
      if x = dstRow ∧ y < C then m.get srcRow (skipIdx skip y) else t.get x y := by
  have h := forRange_induction
    (fun l (st : Matrix × Nat) => st.1.HasShape R C ∧
      st.2 = (if skip < l then l - 1 else l) ∧
      ∀ x y, st.1.get x y =
        if x = dstRow ∧ y < st.2 then m.get srcRow (skipIdx skip y) else t.get x y)
    m.cols
    (fun mat_j (st : Matrix × Nat) =>
      if mat_j = skip then st
      else (st.1.set dstRow st.2 (m.get srcRow mat_j), st.2 + 1))
    (t, 0) ⟨ht, by simp, fun x y => by simp⟩
    (by
      intro l st hl ⟨hs, hcnt, hget⟩
      by_cases hls : l = skip
      · subst hls
        simp only [if_true]
        refine ⟨hs, ?_, hget⟩
        rw [hcnt]
        simp
      · simp only [if_neg hls]
        have hcntC : st.2 < C := by
          rw [hcnt]
          split_ifs <;> omega
        refine ⟨hasShape_set hs _ _ _, ?_, ?_⟩
        · rw [hcnt]
          split_ifs <;> omega
        · intro x y
          rw [get_set_of_hasShape hs hd hcntC]
          by_cases hxy : (x, y) = (dstRow, st.2)
          · simp only [Prod.mk.injEq] at hxy
            obtain ⟨rfl, rfl⟩ := hxy
            have hidx : skipIdx skip st.2 = l := by
              unfold skipIdx
              rw [hcnt]
              split_ifs <;> omega
            simp [hidx]
          · rw [if_neg hxy, hget]
            simp only [Prod.mk.injEq, not_and] at hxy
            by_cases hx : x = dstRow
            · have hy : y ≠ st.2 := hxy hx
              have : (y < st.2 + 1) ↔ y < st.2 := by omega
              simp only [hx, true_and, this]
            · simp [hx])
  obtain ⟨hs, hcnt, hget⟩ := h
  refine ⟨hs, fun x y => ?_⟩
  have hcnt2 : (forRange m.cols (fun mat_j (st : Matrix × Nat) =>
      if mat_j = skip then st
      else (st.1.set dstRow st.2 (m.get srcRow mat_j), st.2 + 1)) (t, 0)).2 = C := by
    rw [hcnt, if_pos hskip]
    omega
  rw [hcnt2] at hget
  exact hget x y

/-- The copy loop never changes the `rows` and `cols` fields of the minor. -/
theorem dims_copyRowSkipping (m : Matrix) (srcRow skip dstRow : Nat) (t : Matrix) :
    (copyRowSkipping m srcRow skip dstRow t).rows = t.rows ∧
    (copyRowSkipping m srcRow skip dstRow t).cols = t.cols := by
  refine forRange_induction
    (fun _ (st : Matrix × Nat) => st.1.rows = t.rows ∧ st.1.cols = t.cols)
    m.cols _ (t, 0) ⟨rfl, rfl⟩ ?_
  intro l st _ hst
  by_cases hls : l = skip
  · simpa [hls] using hst
  · simpa [hls, rows_set, cols_set] using hst

theorem determinantSubMatrix_eq_forRange (m : Matrix) (p : Nat) :
    determinantSubMatrix m p =
      forRange (m.rows - 1) (fun i subMatrix => copyRowSkipping m (i + 1) p i subMatrix)
        (construct (m.rows - 1) (m.cols - 1)) := by
  unfold determinantSubMatrix forRange
  rw [List.range_eq_range', List.range'_eq_map_range, List.range'_eq_map_range,
    List.foldl_map, List.foldl_map]
  simp [Nat.add_comm]

theorem dims_determinantSubMatrix (m : Matrix) (p : Nat) :
    (determinantSubMatrix m p).rows = m.rows - 1 ∧
    (determinantSubMatrix m p).cols = m.cols - 1 := by
  rw [determinantSubMatrix_eq_forRange]
  refine forRange_induction
    (fun _ (t : Matrix) => t.rows = m.rows - 1 ∧ t.cols = m.cols - 1)
    (m.rows - 1) _ _ ⟨rfl, rfl⟩ ?_
  intro l t _ ht
  have := dims_copyRowSkipping m (l + 1) p l t
  exact ⟨this.1.trans ht.1, this.2.trans ht.2⟩

/-- The minor of `determinant`: rows `1 ..` of `m` without column `p`. -/
theorem determinantSubMatrix_spec (m : Matrix) (p : Nat) (hp : p < m.cols) :
    (determinantSubMatrix m p).HasShape (m.rows - 1) (m.cols - 1) ∧
    ∀ x y, x < m.rows - 1 → y < m.cols - 1 →
      (determinantSubMatrix m p).get x y = m.get (x + 1) (skipIdx p y) := by
  rw [determinantSubMatrix_eq_forRange]
  have h := forRange_induction
    (fun l (t : Matrix) => t.HasShape (m.rows - 1) (m.cols - 1) ∧
      ∀ x y, t.get x y =
        if x < l ∧ y < m.cols - 1 then m.get (x + 1) (skipIdx p y) else 0)
    (m.rows - 1) (fun i subMatrix => copyRowSkipping m (i + 1) p i subMatrix)
    (construct (m.rows - 1) (m.cols - 1))
    ⟨hasShape_construct _ _, fun x y => by simp [get_construct]⟩
    (by
      intro l t hl ⟨hs, hget⟩
      obtain ⟨hs2, hget2⟩ := copyRowSkipping_spec m (l + 1) p l hs hl (by omega) hp
      refine ⟨hs2, fun x y => ?_⟩
      rw [hget2, hget]
      by_cases hx : x = l
      · subst hx
        by_cases hy : y < m.cols - 1
        · simp [hy]
        · simp [hy]
      · by_cases hy : y < m.cols - 1
        · have : (x < l + 1) ↔ x < l := by omega
          simp [hx, hy, this]
        · simp [hy])
  refine ⟨h.1, fun x y hx hy => ?_⟩
  rw [h.2, if_pos ⟨hx, hy⟩]

end Matrix
end md

namespace md

/-- A throwing loop whose body always succeeds returns a value. -/
theorem foldlM_ok_exists {β : Type} (l : List Nat) (f : β → Nat → Except MatrixError β)
    (hf : ∀ acc p, p ∈ l → ∃ r, f acc p = .ok r) (init : β) :
    ∃ r, l.foldlM f init = .ok r := by
  induction l generalizing init with
  | nil => exact ⟨init, rfl⟩
  | cons a l ih =>
    obtain ⟨r, hr⟩ := hf init a (List.mem_cons_self a l)
    rw [List.foldlM_cons, hr]
    exact ih (fun acc p hp => hf acc p (List.mem_cons_of_mem a hp)) _

theorem foldl_add_eq_sum (n : Nat) (f : Nat → ℚ) :
    (List.range n).foldl (fun acc p => acc + f p) 0 = ∑ p in Finset.range n, f p := by
  induction n with
  | zero => rfl
  | succ k ih => rw [List.range_succ, List.foldl_append, ih, Finset.sum_range_succ]; rfl

theorem sign_eq_neg_one_pow (p : Nat) : (if p % 2 = 0 then (1 : ℚ) else -1) = (-1) ^ p := by
  by_cases h : p % 2 = 0
  · rw [if_pos h, Even.neg_one_pow (Nat.even_iff.mpr h)]
  · rw [if_neg h, Odd.neg_one_pow (Nat.odd_iff.mpr (by omega))]

namespace Matrix

/-! ## The determinant -/

/-- The recursive equation of `Matrix::determinant`, as written in the source: the depth
argument of `determinantAux` plays no part in it. -/
theorem determinantAux_zero (m : Matrix) :
    determinantAux 0 m =
      if m.rows ≠ m.cols then .error .determinantNotSquare
      else if m.rows = 1 then .ok (m.get 0 0)
      else if m.rows = 2 then .ok (m.get 0 0 * m.get 1 1 - m.get 0 1 * m.get 1 0)
      else .ok 0 := by
  rw [determinantAux]

theorem determinantAux_succ (depth : Nat) (m : Matrix) :
    determinantAux (depth + 1) m =
      if m.rows ≠ m.cols then .error .determinantNotSquare
      else if m.rows = 1 then .ok (m.get 0 0)
      else if m.rows = 2 then .ok (m.get 0 0 * m.get 1 1 - m.get 0 1 * m.get 1 0)
      else
        (List.range m.cols).foldlM (fun det p =>
          match determinantAux depth (determinantSubMatrix m p) with
          | .error e => .error e
          | .ok d => .ok (det + m.get 0 p * d * (if p % 2 = 0 then 1 else -1))) 0 := by
  rw [determinantAux]

theorem determinant_eq (m : Matrix) :
    determinant m =
      if m.rows ≠ m.cols then .error .determinantNotSquare
      else if m.rows = 1 then .ok (m.get 0 0)
      else if m.rows = 2 then .ok (m.get 0 0 * m.get 1 1 - m.get 0 1 * m.get 1 0)
      else
        (List.range m.cols).foldlM (fun det p =>
          match determinant (determinantSubMatrix m p) with
          | .error e => .error e
          | .ok d => .ok (det + m.get 0 p * d * (if p % 2 = 0 then 1 else -1))) 0 := by
  unfold determinant
  cases hrows : m.rows with
  | zero =>
    rw [determinantAux_zero, hrows]
    by_cases hc : 0 = m.cols
    · have h1 : ¬ ((0 : Nat) = 1) := by omega
      have h2 : ¬ ((0 : Nat) = 2) := by omega
      simp only [ne_eq, hc, not_true_eq_false, if_false]
      rw [← hc, if_neg h1, if_neg h2]
      rfl
    · simp only [ne_eq, hc, not_false_eq_true, if_true]
  | succ n =>
    have hsub : ∀ p, (determinantSubMatrix m p).rows = n := by
      intro p
      rw [(dims_determinantSubMatrix m p).1, hrows]
      rfl
    rw [determinantAux_succ, hrows]
    simp only [hsub]

theorem determinantAux_ok_of_square (depth : Nat) :
    ∀ m : Matrix, m.rows = m.cols → ∃ d, determinantAux depth m = .ok d := by
  induction depth with
  | zero =>
    intro m hsq
    rw [determinantAux_zero]
    simp only [hsq, ne_eq, not_true_eq_false, if_false]
    split_ifs <;> exact ⟨_, rfl⟩
  | succ n ih =>
    intro m hsq
    rw [determinantAux_succ]
    simp only [hsq, ne_eq, not_true_eq_false, if_false]
    split_ifs
    · exact ⟨_, rfl⟩
    · exact ⟨_, rfl⟩
    · apply foldlM_ok_exists
      intro acc p _
      have hsub : (determinantSubMatrix m p).rows = (determinantSubMatrix m p).cols := by
        rw [(dims_determinantSubMatrix m p).1, (dims_determinantSubMatrix m p).2, hsq]
      obtain ⟨d, hd⟩ := ih _ hsub
      rw [hd]
      exact ⟨_, rfl⟩

theorem determinant_ok_of_square (m : Matrix) (hsq : m.rows = m.cols) :
    ∃ d, determinant m = .ok d :=
  determinantAux_ok_of_square m.rows m hsq

theorem determinant_error_of_not_square (m : Matrix) (hsq : m.rows ≠ m.cols) :
    determinant m = .error .determinantNotSquare := by
  rw [determinant_eq, if_pos hsq]

theorem succAbove_val_eq_skipIdx {n : Nat} (p : Fin (n + 1)) (y : Fin n) :
    (p.succAbove y).val = skipIdx p.val y.val := by
  unfold Fin.succAbove skipIdx
  by_cases h : y.val < p.val
  · have : y.castSucc < p := h
    simp [this, h]
  · have : ¬ y.castSucc < p := h
    simp [this, h]

/-- The minor of `determinant`, read as a Mathlib matrix, is the submatrix without row `0`
and column `p`. -/
theorem toRatMatrix_determinantSubMatrix {n : Nat} {m : Matrix}
    (hm : m.HasShape (n + 1) (n + 1)) (p : Fin (n + 1)) :
    toRatMatrix n (determinantSubMatrix m p.val) =
      (toRatMatrix (n + 1) m).submatrix Fin.succ p.succAbove := by
  obtain ⟨_, hr, hc⟩ := hm
  funext x y
  have hspec := (determinantSubMatrix_spec m p.val (by rw [hc]; exact p.isLt)).2 x.val y.val
    (by rw [hr]; exact x.isLt) (by rw [hc]; exact y.isLt)
  simp only [toRatMatrix, Matrix.submatrix_apply, Fin.val_succ, succAbove_val_eq_skipIdx]
  exact hspec

/-- On a well-formed `n x n` matrix with `n >= 1` the recursion computes the determinant. -/
theorem determinantAux_eq_det (n : Nat) :
    ∀ m : Matrix, m.HasShape (n + 1) (n + 1) →
      determinantAux (n + 1) m = .ok (toRatMatrix (n + 1) m).det := by
  induction n with
  | zero =>
    intro m hm
    obtain ⟨_, hr, hc⟩ := hm
    simp [determinantAux_succ, hr, hc, Matrix.det_fin_one, toRatMatrix]
  | succ k ih =>
    intro m hm
    have hsub : ∀ p, p < k + 2 → (determinantSubMatrix m p).HasShape (k + 1) (k + 1) := by
      intro p hp
      have := (determinantSubMatrix_spec m p (by rw [hm.2.2]; exact hp)).1
      rwa [hm.2.1, hm.2.2] at this
    obtain ⟨hwf, hr, hc⟩ := hm
    cases k with
    | zero =>
      simp [determinantAux_succ, hr, hc, Matrix.det_fin_two, toRatMatrix]
    | succ j =>
      have hne1 : ¬ (j + 1 + 1 + 1 = 1) := by omega
      have hne2 : ¬ (j + 1 + 1 + 1 = 2) := by omega
      rw [determinantAux_succ]
      simp only [hr, hc, ne_eq, not_true_eq_false, if_false, hne1, hne2]
      rw [foldlM_ok_eq_foldl (List.range (j + 1 + 1 + 1)) _
        (fun det p => det + m.get 0 p *
          (toRatMatrix (j + 1 + 1) (determinantSubMatrix m p)).det *
            (if p % 2 = 0 then 1 else -1))
        (fun acc p hp => by rw [ih _ (hsub p (List.mem_range.mp hp))])]
      congr 1
      rw [foldl_add_eq_sum, Finset.sum_range, Matrix.det_succ_row_zero]
      apply Finset.sum_congr rfl
      intro p _
      rw [toRatMatrix_determinantSubMatrix ⟨hwf, hr, hc⟩ p, sign_eq_neg_one_pow]
      simp only [toRatMatrix, Fin.val_zero]
      ring

end Matrix

/-- C2: for every `n >= 1` and every well-formed `n x n` matrix `A`, `determinant()` returns
the mathematical determinant of `A` (Mathlib's `Matrix.det`, the Leibniz sum). -/
theorem determinant_eq_det (n : Nat) (A : Matrix) (hn : 1 ≤ n) (hA : A.WellFormed)
    (hr : A.rows = n) (hc : A.cols = n) :
    Matrix.determinant A = .ok (Matrix.toRatMatrix n A).det := by
  obtain ⟨k, rfl⟩ : ∃ k, n = k + 1 := ⟨n - 1, by omega⟩
  unfold Matrix.determinant
  rw [hr]
  exact Matrix.determinantAux_eq_det k A ⟨hA, hr, hc⟩

end md

namespace md
namespace Matrix

/-! ## The identity matrix -/

/-- The constructor `SquareMatrixIdentity(size)` builds the well-formed `size x size` matrix
with `1` on the diagonal and `0` elsewhere. -/
theorem squareMatrixIdentity_spec (n : Nat) :
    (squareMatrixIdentity n).HasShape n n ∧
    ∀ x y, (squareMatrixIdentity n).get x y = if x = y ∧ x < n then 1 else 0 := by
  refine forRange_induction
    (fun k (t : Matrix) => t.HasShape n n ∧
      ∀ x y, t.get x y = if x = y ∧ x < k then 1 else 0)
    n (fun i m => m.set i i 1) (squareMatrix n)
    ⟨hasShape_construct n n, fun x y => by simp [squareMatrix, get_construct]⟩ ?_
  intro k t hk ⟨hs, hget⟩
  refine ⟨hasShape_set hs k k 1, fun x y => ?_⟩
  rw [get_set_of_hasShape hs hk hk, hget]
  by_cases hxy : (x, y) = (k, k)
  · simp only [Prod.mk.injEq] at hxy
    obtain ⟨rfl, rfl⟩ := hxy
    simp
  · rw [if_neg hxy]
    simp only [Prod.mk.injEq, not_and] at hxy
    by_cases hx : x = y
    · subst hx
      have hne : x ≠ k := fun e => hxy e e
      have : (x < k + 1) ↔ x < k := by omega
      simp [this]
    · simp [hx]

theorem toRatMatrix_squareMatrixIdentity (n : Nat) :
    toRatMatrix n (squareMatrixIdentity n) = 1 := by
  funext i j
  simp only [toRatMatrix, (squareMatrixIdentity_spec n).2, Matrix.one_apply, i.isLt, and_true,
    Fin.ext_iff]

/-- For every size `n >= 1` the determinant of the identity matrix is `1`. -/
theorem determinant_squareMatrixIdentity_of_pos (n : Nat) (hn : 1 ≤ n) :
    determinant (squareMatrixIdentity n) = .ok 1 := by
  obtain ⟨k, rfl⟩ : ∃ k, n = k + 1 := ⟨n - 1, by omega⟩
  obtain ⟨hs, _⟩ := squareMatrixIdentity_spec (k + 1)
  unfold determinant
  rw [hs.2.1, determinantAux_eq_det k _ hs, toRatMatrix_squareMatrixIdentity, Matrix.det_one]

/-! ## Failure cases of `inverse` -/

theorem dims_inverseSubMatrix (m : Matrix) (i j : Nat) :
    (inverseSubMatrix m i j).rows = m.rows - 1 ∧ (inverseSubMatrix m i j).cols = m.cols - 1 := by
  refine forRange_induction
    (fun _ (st : Matrix × Nat) => st.1.rows = m.rows - 1 ∧ st.1.cols = m.cols - 1)
    m.rows _ (construct (m.rows - 1) (m.cols - 1), 0) ⟨rfl, rfl⟩ ?_
  intro l st _ hst
  by_cases hl : l = i
  · simpa [hl] using hst
  · have := dims_copyRowSkipping m l j st.2 st.1
    simp only [if_neg hl]
    exact ⟨this.1.trans hst.1, this.2.trans hst.2⟩

theorem adjugateLoop_ok (m : Matrix) (hsq : m.rows = m.cols) :
    ∃ adj, adjugateLoop m = .ok adj := by
  unfold adjugateLoop
  apply foldlM_ok_exists
  intro adj i _
  apply foldlM_ok_exists
  intro adj2 j _
  have hsub : (inverseSubMatrix m i j).rows = (inverseSubMatrix m i j).cols := by
    rw [(dims_inverseSubMatrix m i j).1, (dims_inverseSubMatrix m i j).2, hsq]
  obtain ⟨d, hd⟩ := determinant_ok_of_square _ hsub
  rw [hd]
  exact ⟨_, rfl⟩

/-- The determinant of the test matrix `[[1,2,3],[4,5,6],[7,8,9]]` is `0`. -/
theorem determinant_test_matrix :
    determinant (ofValues [[1, 2, 3], [4, 5, 6], [7, 8, 9]]) = .ok 0 := by
  have h := determinantAux_eq_det 2 (ofValues [[1, 2, 3], [4, 5, 6], [7, 8, 9]])
    ⟨by decide, rfl, rfl⟩
  unfold determinant
  rw [show (ofValues [[1, 2, 3], [4, 5, 6], [7, 8, 9]]).rows = 2 + 1 from rfl, h]
  congr 1
  rw [Matrix.det_fin_three]
  simp [toRatMatrix, get, ofValues]
  norm_num

end Matrix

/-! ## Claims on `determinant` and `inverse` -/

/-- On the 3 x 3 matrix of the test driver, `[[1,2,3],[4,5,6],[7,8,9]]`, the determinant
is `0`. -/
theorem determinant_eq_det_witness :
    Matrix.determinant (Matrix.ofValues [[1, 2, 3], [4, 5, 6], [7, 8, 9]]) = .ok 0 := by
  rw [determinant_eq_det 3 (Matrix.ofValues [[1, 2, 3], [4, 5, 6], [7, 8, 9]])
    (by decide) (by decide) rfl rfl]
  congr 1
  rw [Matrix.det_fin_three]
  simp [Matrix.toRatMatrix, Matrix.get, Matrix.ofValues]
  norm_num

/-- C3 at size `0`: `determinant()` of the `0 x 0` identity matrix returns `0`, not `1`; the
matrix has neither one nor two rows and the loop over `p < cols` does not run. -/
theorem determinant_squareMatrixIdentity_zero :
    Matrix.determinant (Matrix.squareMatrixIdentity 0) = .ok 0 ∧
    Matrix.determinant (Matrix.squareMatrixIdentity 0) ≠ .ok 1 := by
  constructor
  · rfl
  · intro h
    have h2 : Matrix.determinant (Matrix.squareMatrixIdentity 0) = .ok 0 := rfl
    rw [h2] at h
    simp at h

/-- C5: `determinant()` raises the non-square error exactly when `rows != cols`, and returns
a number for every square matrix, whatever its size. -/
theorem determinant_error_iff_not_square (m : Matrix) :
    (m.rows ≠ m.cols ∧ Matrix.determinant m = .error .determinantNotSquare) ∨
    (m.rows = m.cols ∧ ∃ d, Matrix.determinant m = .ok d) := by
  by_cases h : m.rows = m.cols
  · exact Or.inr ⟨h, Matrix.determinant_ok_of_square m h⟩
  · exact Or.inl ⟨h, Matrix.determinant_error_of_not_square m h⟩

/-- C4: `inverse()` fails in exactly two cases: on a matrix with `rows != cols` it raises the
non-square error (the `std::invalid_argument` of the `determinant()` call it starts with), on
a square matrix whose `determinant()` is exactly `0` it raises the singularity error, and on a
square matrix with non-zero determinant it returns a matrix.  The matrix
`[[1,2,3],[4,5,6],[7,8,9]]` is singular. -/
theorem inverse_error_cases :
    (∀ m : Matrix,
      (m.rows ≠ m.cols ∧ Matrix.inverse m = .error .determinantNotSquare) ∨
      (m.rows = m.cols ∧ Matrix.determinant m = .ok 0 ∧
        Matrix.inverse m = .error .nonInvertible) ∨
      (m.rows = m.cols ∧ ∃ d R, d ≠ 0 ∧ Matrix.determinant m = .ok d ∧
        Matrix.inverse m = .ok R)) ∧
    Matrix.inverse (Matrix.ofValues [[1, 2, 3], [4, 5, 6], [7, 8, 9]]) =
      .error .nonInvertible := by
  have hall : ∀ m : Matrix,
      (m.rows ≠ m.cols ∧ Matrix.inverse m = .error .determinantNotSquare) ∨
      (m.rows = m.cols ∧ Matrix.determinant m = .ok 0 ∧
        Matrix.inverse m = .error .nonInvertible) ∨
      (m.rows = m.cols ∧ ∃ d R, d ≠ 0 ∧ Matrix.determinant m = .ok d ∧
        Matrix.inverse m = .ok R) := by
    intro m
    by_cases h : m.rows = m.cols
    · obtain ⟨d, hd⟩ := Matrix.determinant_ok_of_square m h
      by_cases hd0 : d = 0
      · subst hd0
        exact Or.inr (Or.inl ⟨h, hd, by simp [Matrix.inverse, hd]⟩)
      · obtain ⟨adj, hadj⟩ := Matrix.adjugateLoop_ok m h
        exact Or.inr (Or.inr ⟨h, d, adj.scale (1 / d), hd0, hd,
          by simp [Matrix.inverse, hd, hd0, h, hadj]⟩)
    · exact Or.inl ⟨h, by simp [Matrix.inverse, Matrix.determinant_error_of_not_square m h]⟩
  refine ⟨hall, ?_⟩
  rcases hall (Matrix.ofValues [[1, 2, 3], [4, 5, 6], [7, 8, 9]]) with h | h | h
  · exact absurd rfl h.1
  · exact h.2.2
  · obtain ⟨_, d, R, hd0, hd, _⟩ := h
    have hdet := Matrix.determinant_test_matrix
    rw [hdet] at hd
    exact absurd (Except.ok.inj hd).symm hd0

/-- C1 on a `1 x 1` matrix: `inverse()` of `[[4]]`, whose determinant is `4`, returns `[[0]]`,
and `[[4]] * [[0]]` is `[[0]]`, which is not the `1 x 1` identity matrix `[[1]]`. -/
theorem inverse_one_by_one_not_inverse :
    Matrix.determinant (Matrix.ofValues [[4]]) = .ok 4 ∧
    Matrix.inverse (Matrix.ofValues [[4]]) = .ok ⟨[[0]], 1, 1⟩ ∧
    Matrix.mul (Matrix.ofValues [[4]]) ⟨[[0]], 1, 1⟩ = .ok ⟨[[0]], 1, 1⟩ ∧
    Matrix.squareMatrixIdentity 1 = ⟨[[1]], 1, 1⟩ ∧
    (⟨[[0]], 1, 1⟩ : Matrix) ≠ Matrix.squareMatrixIdentity 1 := by
  refine ⟨rfl, ?_, ?_, rfl, ?_⟩
  · simp [Matrix.inverse, Matrix.determinant, Matrix.determinantAux, Matrix.adjugateLoop,
      Matrix.inverseSubMatrix, forRange, Matrix.construct, Matrix.set, Matrix.get,
      Matrix.scale, Matrix.ofValues, List.range_succ]
  · simp [Matrix.mul, forRange, Matrix.construct, Matrix.set, Matrix.get,
      Matrix.ofValues, List.range_succ]
  · simp [Matrix.squareMatrixIdentity, Matrix.squareMatrix, forRange, Matrix.construct,
      Matrix.set, List.range_succ]

end md

namespace md

/-! ## Instances on the matrices of the test driver -/

/-- Adding and then subtracting `m2 = m1.transpose()` on the test matrix `m1`. -/
theorem add_then_sub_cancel_witness :
    ∃ S, Matrix.add (Matrix.ofValues [[1, 2, 3], [4, 5, 6], [7, 8, 9]])
        (Matrix.ofValues [[1, 4, 7], [2, 5, 8], [3, 6, 9]]) = .ok S ∧
      Matrix.sub S (Matrix.ofValues [[1, 4, 7], [2, 5, 8], [3, 6, 9]])
        = .ok (Matrix.ofValues [[1, 2, 3], [4, 5, 6], [7, 8, 9]]) :=
  add_then_sub_cancel (Matrix.ofValues [[1, 2, 3], [4, 5, 6], [7, 8, 9]])
    (Matrix.ofValues [[1, 4, 7], [2, 5, 8], [3, 6, 9]]) (by decide) (by decide) rfl rfl

/-- Transposing a `2 x 3` matrix twice. -/
theorem transpose_transpose_witness :
    (Matrix.ofValues [[1, 2, 3], [4, 5, 6]]).transpose.transpose
      = Matrix.ofValues [[1, 2, 3], [4, 5, 6]] :=
  (transpose_transpose (Matrix.ofValues [[1, 2, 3], [4, 5, 6]]) (by decide)).2

/-- The three scaled products of a `2 x 3` and a `3 x 2` matrix with the scalar `5`. -/
theorem scalar_mul_assoc_witness :
    ∃ AB P Q,
      Matrix.mul (Matrix.ofValues [[1, 2, 3], [4, 5, 6]])
        (Matrix.ofValues [[1, 4], [2, 5], [3, 6]]) = .ok AB ∧
      Matrix.mul (Matrix.scalarMul 5 (Matrix.ofValues [[1, 2, 3], [4, 5, 6]]))
        (Matrix.ofValues [[1, 4], [2, 5], [3, 6]]) = .ok P ∧
      Matrix.mul (Matrix.ofValues [[1, 2, 3], [4, 5, 6]])
        (Matrix.scalarMul 5 (Matrix.ofValues [[1, 4], [2, 5], [3, 6]])) = .ok Q ∧
      Matrix.scalarMul 5 AB = P ∧ P = Q :=
  (scalar_mul_assoc (Matrix.ofValues [[1, 2, 3], [4, 5, 6]])
    (Matrix.ofValues [[1, 4], [2, 5], [3, 6]]) 5 (by decide) (by decide) rfl).1

end md

namespace md
namespace Matrix

/-! ## The adjugate construction of `inverse` -/

/-- The minor of `inverse`: `m` without row `i` and column `j`. -/
theorem inverseSubMatrix_spec (m : Matrix) (i j : Nat) (hi : i < m.rows) (hj : j < m.cols) :
    (inverseSubMatrix m i j).HasShape (m.rows - 1) (m.cols - 1) ∧
    ∀ x y, x < m.rows - 1 → y < m.cols - 1 →
      (inverseSubMatrix m i j).get x y = m.get (skipIdx i x) (skipIdx j y) := by
  have h := forRange_induction
    (fun l (st : Matrix × Nat) => st.1.HasShape (m.rows - 1) (m.cols - 1) ∧
      st.2 = (if i < l then l - 1 else l) ∧
      ∀ x y, st.1.get x y =
        if x < st.2 ∧ y < m.cols - 1 then m.get (skipIdx i x) (skipIdx j y) else 0)
    m.rows
    (fun mat_i (st : Matrix × Nat) =>
      if mat_i = i then st
      else (copyRowSkipping m mat_i j st.2 st.1, st.2 + 1))
    (construct (m.rows - 1) (m.cols - 1), 0)
    ⟨hasShape_construct _ _, by simp, fun x y => by simp [get_construct]⟩
    (by
      intro l st hl ⟨hs, hcnt, hget⟩
      by_cases hli : l = i
      · subst hli
        simp only [if_true]
        refine ⟨hs, ?_, hget⟩
        rw [hcnt]
        simp
      · simp only [if_neg hli]
        have hcntR : st.2 < m.rows - 1 := by
          rw [hcnt]
          split_ifs <;> omega
        obtain ⟨hs2, hget2⟩ := copyRowSkipping_spec m l j st.2 hs hcntR (by omega) hj
        refine ⟨hs2, ?_, ?_⟩
        · rw [hcnt]
          split_ifs <;> omega
        · intro x y
          rw [hget2, hget]
          have hidx : skipIdx i st.2 = l := by
            unfold skipIdx
            rw [hcnt]
            split_ifs <;> omega
          by_cases hx : x = st.2
          · subst hx
            by_cases hy : y < m.cols - 1
            · simp [hy, hidx]
            · simp [hy]
          · by_cases hy : y < m.cols - 1
            · have : (x < st.2 + 1) ↔ x < st.2 := by omega
              simp [hx, hy, this]
            · simp [hy])
  obtain ⟨hs, hcnt, hget⟩ := h
  refine ⟨hs, fun x y hx hy => ?_⟩
  have hcnt2 : (forRange m.rows (fun mat_i (st : Matrix × Nat) =>
      if mat_i = i then st
      else (copyRowSkipping m mat_i j st.2 st.1, st.2 + 1))
      (construct (m.rows - 1) (m.cols - 1), 0)).2 = m.rows - 1 := by
    rw [hcnt, if_pos hi]
  have := hget x y
  rw [hcnt2, if_pos ⟨hx, hy⟩] at this
  exact this

theorem determinant_eq_ok_determinantValue (m : Matrix) (hsq : m.rows = m.cols) :
    determinant m = .ok (determinantValue m) := by
  obtain ⟨d, hd⟩ := determinant_ok_of_square m hsq
  simp [determinantValue, hd]

/-- On a square matrix the adjugate loops throw nothing and store, at the transposed
position `(j, i)`, the determinant of the minor of `(i, j)` times the sign of `i + j`. -/
theorem adjugateLoop_spec (m : Matrix) (hsq : m.rows = m.cols) :
    ∃ adj, adjugateLoop m = .ok adj ∧ adj.HasShape m.rows m.cols ∧
      ∀ i j, i < m.rows → j < m.cols →
        adj.get j i = determinantValue (inverseSubMatrix m i j) *
          (if (i + j) % 2 = 0 then 1 else -1) := by
  have hsub : ∀ i j, (inverseSubMatrix m i j).rows = (inverseSubMatrix m i j).cols := by
    intro i j
    rw [(dims_inverseSubMatrix m i j).1, (dims_inverseSubMatrix m i j).2, hsq]
  have hloop : adjugateLoop m = .ok
      (forRange m.rows (fun i adj => forRange m.cols (fun j adj =>
        adj.set j i (determinantValue (inverseSubMatrix m i j) *
          (if (i + j) % 2 = 0 then 1 else -1))) adj) (construct m.rows m.cols)) := by
    unfold adjugateLoop forRange
    apply foldlM_ok_eq_foldl
    intro adj i _
    apply foldlM_ok_eq_foldl
    intro adj2 j _
    rw [determinant_eq_ok_determinantValue _ (hsub i j)]
  have h := nestedLoop_spec m.rows m.cols m.rows m.cols (fun i j => (j, i))
    (fun i j _ => determinantValue (inverseSubMatrix m i j) *
      (if (i + j) % 2 = 0 then 1 else -1))
    (fun i j t => t.set j i (determinantValue (inverseSubMatrix m i j) *
      (if (i + j) % 2 = 0 then 1 else -1)))
    (construct m.rows m.cols) (hasShape_construct _ _)
    (by intro i j i' j' _ _ _ _ e; simp only [Prod.mk.injEq] at e; exact ⟨e.2, e.1⟩)
    (by
      intro i j t hi hj ht
      exact ⟨hasShape_set ht j i _,
        fun x y => get_set_of_hasShape ht (hsq ▸ hj) (hsq ▸ hi) _ x y⟩)
  exact ⟨_, hloop, h.1, fun i j hi hj => h.2.1 i j hi hj⟩

/-- The adjugate formula of `inverse`: on a square matrix with non-zero determinant `d` the
result `R` has `R[j][i] = determinant(minor_ij) * sign(i + j) * (1 / d)`. -/
theorem inverse_spec (m : Matrix) (hsq : m.rows = m.cols) (d : ℚ)
    (hd : determinant m = .ok d) (hd0 : d ≠ 0) :
    ∃ R, inverse m = .ok R ∧ R.HasShape m.rows m.cols ∧
      ∀ i j, i < m.rows → j < m.cols →
        R.get j i = determinantValue (inverseSubMatrix m i j) *
          (if (i + j) % 2 = 0 then 1 else -1) * (1 / d) := by
  obtain ⟨adj, hadj, hs, hget⟩ := adjugateLoop_spec m hsq
  obtain ⟨hs2, hget2⟩ := scale_spec adj (1 / d)
  rw [hs.2.1, hs.2.2] at hs2 hget2
  refine ⟨adj.scale (1 / d), by simp [inverse, hd, hd0, hsq, hadj], hs2, ?_⟩
  intro i j hi hj
  rw [hget2 j i (hsq ▸ hj) (hsq ▸ hi), hget i j hi hj]

/-- The minor of `inverse`, read as a Mathlib matrix, is the submatrix without row `i` and
column `j`. -/
theorem toRatMatrix_inverseSubMatrix {n : Nat} {m : Matrix}
    (hm : m.HasShape (n + 1) (n + 1)) (i j : Fin (n + 1)) :
    toRatMatrix n (inverseSubMatrix m i.val j.val) =
      (toRatMatrix (n + 1) m).submatrix i.succAbove j.succAbove := by
  obtain ⟨_, hr, hc⟩ := hm
  funext x y
  have hspec := (inverseSubMatrix_spec m i.val j.val (by rw [hr]; exact i.isLt)
    (by rw [hc]; exact j.isLt)).2 x.val y.val
    (by rw [hr]; exact x.isLt) (by rw [hc]; exact y.isLt)
  simp only [toRatMatrix, Matrix.submatrix_apply, succAbove_val_eq_skipIdx]
  exact hspec

/-- For `n >= 2` the matrix returned by `inverse` is the adjugate divided by the
determinant. -/
theorem inverse_eq_adjugate (k : Nat) (m : Matrix) (hm : m.HasShape (k + 2) (k + 2))
    (hdet : (toRatMatrix (k + 2) m).det ≠ 0) :
    ∃ R, inverse m = .ok R ∧ R.HasShape (k + 2) (k + 2) ∧
      ∀ x y : Fin (k + 2), R.get x.val y.val =
        (toRatMatrix (k + 2) m).adjugate x y * (1 / (toRatMatrix (k + 2) m).det) := by
  have hd : determinant m = .ok (toRatMatrix (k + 2) m).det := by
    unfold determinant
    rw [hm.2.1]
    exact determinantAux_eq_det (k + 1) m hm
  obtain ⟨R, hR, hs, hget⟩ := inverse_spec m (hm.2.1.trans hm.2.2.symm) _ hd hdet
  rw [hm.2.1, hm.2.2] at hs hget
  refine ⟨R, hR, hs, fun x y => ?_⟩
  rw [hget y.val x.val y.isLt x.isLt, Matrix.adjugate_fin_succ_eq_det_submatrix,
    ← toRatMatrix_inverseSubMatrix hm y x, sign_eq_neg_one_pow]
  have hsubshape : (inverseSubMatrix m y.val x.val).HasShape (k + 1) (k + 1) := by
    have := (inverseSubMatrix_spec m y.val x.val (by rw [hm.2.1]; exact y.isLt)
      (by rw [hm.2.2]; exact x.isLt)).1
    rwa [hm.2.1, hm.2.2] at this
  have hval : determinantValue (inverseSubMatrix m y.val x.val) =
      (toRatMatrix (k + 1) (inverseSubMatrix m y.val x.val)).det := by
    have h1 : determinant (inverseSubMatrix m y.val x.val) =
        .ok (toRatMatrix (k + 1) (inverseSubMatrix m y.val x.val)).det := by
      unfold determinant
      rw [hsubshape.2.1]
      exact determinantAux_eq_det k _ hsubshape
    simp [determinantValue, h1]
  rw [hval]
  ring

/-- For every `n >= 2` and every well-formed `n x n` matrix `A` with non-zero determinant,
`A * A.inverse()` succeeds and is the `n x n` identity matrix. -/
theorem mul_inverse_of_two_le (n : Nat) (A : Matrix) (hn : 2 ≤ n) (hA : A.WellFormed)
    (hr : A.rows = n) (hc : A.cols = n) (d : ℚ) (hd : determinant A = .ok d) (hd0 : d ≠ 0) :
    ∃ R, inverse A = .ok R ∧ mul A R = .ok (squareMatrixIdentity n) := by
  obtain ⟨k, rfl⟩ : ∃ k, n = k + 2 := ⟨n - 2, by omega⟩
  have hm : A.HasShape (k + 2) (k + 2) := ⟨hA, hr, hc⟩
  have hdet : determinant A = .ok (toRatMatrix (k + 2) A).det := by
    unfold determinant
    rw [hr]
    exact determinantAux_eq_det (k + 1) A hm
  have hdd : d = (toRatMatrix (k + 2) A).det := by
    rw [hd] at hdet
    exact Except.ok.inj hdet
  subst hdd
  obtain ⟨R, hR, hRs, hRget⟩ := inverse_eq_adjugate k A hm hd0
  obtain ⟨P, hP, hPs, hPget⟩ := mul_spec A R (hc.trans hRs.2.1.symm)
  refine ⟨R, hR, ?_⟩
  rw [hP]
  congr 1
  obtain ⟨hIs, hIget⟩ := squareMatrixIdentity_spec (k + 2)
  rw [hr, hRs.2.2] at hPs hPget
  rw [hc] at hPget
  apply ext_get hPs.1 hIs.1 (hPs.2.1.trans hIs.2.1.symm) (hPs.2.2.trans hIs.2.2.symm)
  intro i j hi hj
  rw [hPs.2.1] at hi
  rw [hPs.2.2] at hj
  rw [hPget i j hi hj, hIget, Finset.sum_range]
  have hmul := congrFun (congrFun (Matrix.mul_adjugate (toRatMatrix (k + 2) A)) ⟨i, hi⟩) ⟨j, hj⟩
  rw [Matrix.mul_apply, Matrix.smul_apply, Matrix.one_apply] at hmul
  have hsum : ∑ x : Fin (k + 2), A.get i x.val * R.get x.val j =
      (∑ x : Fin (k + 2), toRatMatrix (k + 2) A ⟨i, hi⟩ x *
        (toRatMatrix (k + 2) A).adjugate x ⟨j, hj⟩) * (1 / (toRatMatrix (k + 2) A).det) := by
    rw [Finset.sum_mul]
    apply Finset.sum_congr rfl
    intro x _
    rw [hRget x ⟨j, hj⟩]
    simp only [toRatMatrix]
    ring
  rw [hsum, hmul]
  by_cases hij : i = j
  · subst hij
    simp [hi, hd0]
  · have : ¬ ((⟨i, hi⟩ : Fin (k + 2)) = ⟨j, hj⟩) := by
      intro e
      exact hij (Fin.mk.inj e)
    simp [hij, this]

/-- Test 8 of the driver: the inverse of `[[4,7],[2,6]]`, of determinant `10`, is
`[[6/10, -7/10], [-2/10, 4/10]]`. -/
theorem inverse_test_matrix :
    determinant (ofValues [[4, 7], [2, 6]]) = .ok 10 ∧
    inverse (ofValues [[4, 7], [2, 6]]) =
      .ok ⟨[[6 / 10, -7 / 10], [-2 / 10, 4 / 10]], 2, 2⟩ := by
  have hdet : determinant (ofValues [[4, 7], [2, 6]]) = .ok 10 := by
    simp [determinant, determinantAux, ofValues, get]
    norm_num
  refine ⟨hdet, ?_⟩
  simp [inverse, hdet, adjugateLoop, inverseSubMatrix, copyRowSkipping, forRange,
    construct, set, get, scale, ofValues, List.range_succ, determinant, determinantAux,
    bind, Except.bind, pure, Except.pure]
  norm_num

end Matrix
end md

namespace md
namespace Matrix

/-! ## Division, the identity in sums, and the fill-assignment -/

/-- The matrix returned by `inverse` has the shape of its operand. -/
theorem shape_of_inverse_ok (B R : Matrix) (h : inverse B = .ok R) :
    R.HasShape B.rows B.cols := by
  by_cases hsq : B.rows = B.cols
  · obtain ⟨d, hd⟩ := determinant_ok_of_square B hsq
    by_cases hd0 : d = 0
    · subst hd0
      simp [inverse, hd] at h
    · obtain ⟨R2, hR2, hs, _⟩ := inverse_spec B hsq d hd hd0
      rw [h] at hR2
      rw [Except.ok.inj hR2]
      exact hs
  · simp [inverse, determinant_error_of_not_square B hsq] at h

/-- The ways in which `inverse` throws: not square, or determinant `0`. -/
theorem inverse_error_reason (B : Matrix) (e : MatrixError) (h : inverse B = .error e) :
    (B.rows ≠ B.cols ∧ e = .determinantNotSquare) ∨
    (B.rows = B.cols ∧ determinant B = .ok 0 ∧ e = .nonInvertible) := by
  by_cases hsq : B.rows = B.cols
  · obtain ⟨d, hd⟩ := determinant_ok_of_square B hsq
    by_cases hd0 : d = 0
    · subst hd0
      right
      simp only [inverse, hd, if_true] at h
      exact ⟨hsq, hd, (Except.error.inj h).symm⟩
    · obtain ⟨R, hR, _⟩ := inverse_spec B hsq d hd hd0
      rw [hR] at h
      cases h
  · left
    simp only [inverse, determinant_error_of_not_square B hsq] at h
    exact ⟨hsq, (Except.error.inj h).symm⟩

/-- The fill loop writes `value` into every cell and keeps the shape. -/
theorem fillAssign_spec (S : Matrix) (value : ℚ) (hS : S.WellFormed) :
    (fillAssign S value).HasShape S.rows S.cols ∧
    ∀ i j, i < S.rows → j < S.cols → (fillAssign S value).get i j = value := by
  have h := nestedLoop_spec S.rows S.cols S.rows S.cols (fun i j => (i, j))
    (fun _ _ _ => value) (fun i j t => t.set i j value) S ⟨hS, rfl, rfl⟩
    (by intro i j i' j' _ _ _ _ e; simpa using e)
    (by
      intro i j t hi hj ht
      exact ⟨hasShape_set ht i j _, fun x y => get_set_of_hasShape ht hi hj _ x y⟩)
  exact ⟨h.1, fun i j hi hj => h.2.1 i j hi hj⟩

end Matrix

/-- C11: `A / B` behaves exactly as `A * B.inverse()`.  If `B.inverse()` fails (`B` is not
square, or its determinant is `0`), `A / B` raises that same error whatever the shape of `A`;
otherwise it raises the dimension-mismatch error exactly when `A.cols != B.rows`, and else
returns the product `A * B.inverse()`.  On the test input,
`[[8,0],[0,8]] / [[2,0],[0,2]] = [[4,0],[0,4]]`. -/
theorem div_eq_mul_inverse :
    (∀ A B : Matrix,
      Matrix.div A B = (Matrix.inverse B).bind (fun R => Matrix.mul A R) ∧
      ((∃ e, Matrix.inverse B = .error e ∧ Matrix.div A B = .error e ∧
          ((B.rows ≠ B.cols ∧ e = .determinantNotSquare) ∨
           (B.rows = B.cols ∧ Matrix.determinant B = .ok 0 ∧ e = .nonInvertible))) ∨
       (∃ R, Matrix.inverse B = .ok R ∧
          ((A.cols ≠ B.rows ∧ Matrix.div A B = .error .invalidMultiplicationDimensions) ∨
           (A.cols = B.rows ∧ ∃ P, Matrix.mul A R = .ok P ∧ Matrix.div A B = .ok P))))) ∧
    Matrix.div (Matrix.ofValues [[8, 0], [0, 8]]) (Matrix.ofValues [[2, 0], [0, 2]])
      = .ok ⟨[[4, 0], [0, 4]], 2, 2⟩ := by
  constructor
  · intro A B
    cases hinv : Matrix.inverse B with
    | error e =>
      refine ⟨by simp [Matrix.div, hinv, Except.bind], Or.inl ⟨e, rfl, ?_, ?_⟩⟩
      · simp [Matrix.div, hinv]
      · exact Matrix.inverse_error_reason B e hinv
    | ok R =>
      refine ⟨by simp [Matrix.div, hinv, Except.bind], Or.inr ⟨R, rfl, ?_⟩⟩
      have hshape := Matrix.shape_of_inverse_ok B R hinv
      by_cases hdim : A.cols = B.rows
      · right
        obtain ⟨P, hP, _⟩ := Matrix.mul_spec A R (hdim.trans hshape.2.1.symm)
        exact ⟨hdim, P, hP, by simp [Matrix.div, hinv, hP]⟩
      · left
        refine ⟨hdim, ?_⟩
        have : A.cols ≠ R.rows := by rw [hshape.2.1]; exact hdim
        simp [Matrix.div, hinv, Matrix.mul, this]
  · have hdet : Matrix.determinant (Matrix.ofValues [[2, 0], [0, 2]]) = .ok 4 := by
      simp [Matrix.determinant, Matrix.determinantAux, Matrix.ofValues, Matrix.get]
      norm_num
    have hinv : Matrix.inverse (Matrix.ofValues [[2, 0], [0, 2]])
        = .ok ⟨[[1 / 2, 0], [0, 1 / 2]], 2, 2⟩ := by
      simp [Matrix.inverse, hdet, Matrix.adjugateLoop, Matrix.inverseSubMatrix,
        Matrix.copyRowSkipping, forRange, Matrix.construct, Matrix.set, Matrix.get,
        Matrix.scale, Matrix.ofValues, List.range_succ, Matrix.determinant,
        Matrix.determinantAux, bind, Except.bind, pure, Except.pure]
    rw [Matrix.div, hinv]
    simp [Matrix.mul, forRange, Matrix.construct, Matrix.set, Matrix.get,
      Matrix.ofValues, List.range_succ]
    norm_num

/-- C16: for every size `n` and every well-formed `n x n` matrix `M`,
`SquareMatrixIdentity(n) + M` succeeds and returns the `n x n` matrix whose entry `(i, j)`
is `M[i][j] + 1` when `i == j` and `M[i][j]` otherwise; the fresh identity matrix has `1`
exactly on the diagonal and `0` elsewhere. -/
theorem identity_add (n : Nat) (M : Matrix) (_hM : M.WellFormed) (hr : M.rows = n)
    (hc : M.cols = n) :
    (∀ i j, i < n → j < n →
      (Matrix.squareMatrixIdentity n).get i j = if i = j then 1 else 0) ∧
    ∃ S, Matrix.add (Matrix.squareMatrixIdentity n) M = .ok S ∧
      S.WellFormed ∧ S.rows = n ∧ S.cols = n ∧
      ∀ i j, i < n → j < n → S.get i j = if i = j then M.get i j + 1 else M.get i j := by
  obtain ⟨hIs, hIget⟩ := Matrix.squareMatrixIdentity_spec n
  have hI : ∀ i j, i < n → j < n →
      (Matrix.squareMatrixIdentity n).get i j = if i = j then 1 else 0 := by
    intro i j hi _
    rw [hIget]
    simp [hi]
  refine ⟨hI, ?_⟩
  obtain ⟨S, hS, hSs, hSget⟩ := Matrix.add_spec (Matrix.squareMatrixIdentity n) M
    (hIs.2.1.trans hr.symm) (hIs.2.2.trans hc.symm)
  rw [hIs.2.1, hIs.2.2] at hSs hSget
  refine ⟨S, hS, hSs.1, hSs.2.1, hSs.2.2, ?_⟩
  intro i j hi hj
  rw [hSget i j hi hj, hI i j hi hj]
  split_ifs
  · ring
  · ring

/-- C17: for every square-matrix object `S` (a well-formed matrix) and every scalar `v`,
the fill-assignment `S = v` leaves `rows` and `cols` unchanged and makes every element
`S(i, j)` with `i < rows`, `j < cols` equal to `v`; the matrix returned is `S` in that
state. -/
theorem fillAssign_sets_all (S : Matrix) (v : ℚ) (hS : S.WellFormed) :
    (Matrix.fillAssign S v).rows = S.rows ∧ (Matrix.fillAssign S v).cols = S.cols ∧
    (Matrix.fillAssign S v).WellFormed ∧
    ∀ i j, i < S.rows → j < S.cols → (Matrix.fillAssign S v).get i j = v := by
  obtain ⟨hs, hget⟩ := Matrix.fillAssign_spec S v hS
  exact ⟨hs.2.1, hs.2.2, hs.1, hget⟩

/-- With exact entries, `inverse()` of a `1 x 1` matrix `[[a]]`, `a != 0`, raises no error
and returns `[[0]]`: its only cofactor is `determinant()` of the empty `0 x 0` minor, which
is computed as `0`. -/
theorem inverse_one_by_one_exact (a : ℚ) (ha : a ≠ 0) :
    Matrix.inverseSubMatrix ⟨[[a]], 1, 1⟩ 0 0 = ⟨[], 0, 0⟩ ∧
    Matrix.determinant (Matrix.inverseSubMatrix ⟨[[a]], 1, 1⟩ 0 0) = .ok 0 ∧
    Matrix.inverse ⟨[[a]], 1, 1⟩ = .ok ⟨[[0]], 1, 1⟩ := by
  refine ⟨rfl, rfl, ?_⟩
  have hdet : Matrix.determinant ⟨[[a]], 1, 1⟩ = .ok a := rfl
  simp [Matrix.inverse, hdet, ha, Matrix.adjugateLoop, Matrix.inverseSubMatrix, forRange,
    Matrix.construct, Matrix.set, Matrix.get, Matrix.scale, List.range_succ,
    Matrix.determinant, Matrix.determinantAux, bind, Except.bind, pure, Except.pure]

end md

namespace md

/-! ## Row-wise loops over the storage -/

theorem list_ext_getD (a b : List (List ℚ)) (hlen : a.length = b.length)
    (h : ∀ i, i < a.length → a.getD i [] = b.getD i []) : a = b := by
  apply List.ext_getElem hlen
  intro i h1 h2
  have := h i h1
  rwa [List.getD_eq_getElem _ _ h1, List.getD_eq_getElem _ _ h2] at this

theorem mem_iff_getD (a : List (List ℚ)) (row : List ℚ) (h : row ∈ a) :
    ∃ i, i < a.length ∧ a.getD i [] = row := by
  obtain ⟨i, hi, he⟩ := List.getElem_of_mem h
  exact ⟨i, hi, by rw [List.getD_eq_getElem _ _ hi]; exact he⟩

/-- A loop that rewrites row `i` from its own content, for `i < n`, rewrites the first `n`
rows independently and keeps the number of rows. -/
theorem rowLoop_spec (f : Nat → List ℚ → List ℚ) (data : List (List ℚ)) (n : Nat)
    (hn : n ≤ data.length) :
    (forRange n (fun i d => d.set i (f i (d.getD i []))) data).length = data.length ∧
    ∀ i, (forRange n (fun i d => d.set i (f i (d.getD i []))) data).getD i [] =
      if i < n then f i (data.getD i []) else data.getD i [] := by
  refine forRange_induction
    (fun k (d : List (List ℚ)) => d.length = data.length ∧
      ∀ i, d.getD i [] = if i < k then f i (data.getD i []) else data.getD i [])
    n _ data ⟨rfl, fun i => by simp⟩ ?_
  intro k d hk ⟨hlen, hget⟩
  refine ⟨by simp [hlen], fun i => ?_⟩
  have hkd : k < d.length := by omega
  have hk0 : d.getD k [] = data.getD k [] := by
    rw [hget k, if_neg (Nat.lt_irrefl k)]
  by_cases hik : i = k
  · subst hik
    rw [List.getD_eq_getElem _ _ (by simpa using hkd), List.getElem_set_self,
      if_pos (Nat.lt_succ_self i), hk0]
  · have hne : k ≠ i := fun e => hik e.symm
    simp only [List.getD_eq_getElem?_getD, List.getElem?_set_ne hne]
    have := hget i
    simp only [List.getD_eq_getElem?_getD] at this
    rw [this]
    have hiff : (i < k + 1) ↔ i < k := by omega
    simp only [hiff]

namespace Matrix

/-! ## Structural edits -/

theorem addColumnLoop_spec (c : List ℚ) (e : Bool) (data : List (List ℚ)) (n : Nat)
    (hn : n ≤ data.length) :
    (addColumnLoop c e n data).length = data.length ∧
    ∀ i, (addColumnLoop c e n data).getD i [] =
      if i < n then
        (if e then data.getD i [] ++ [c.getD i 0] else c.getD i 0 :: data.getD i [])
      else data.getD i [] :=
  rowLoop_spec (fun i row => if e then row ++ [c.getD i 0] else c.getD i 0 :: row) data n hn

theorem removeColumnLoop_spec (e : Bool) (data : List (List ℚ)) (n : Nat)
    (hn : n ≤ data.length) :
    (removeColumnLoop e n data).length = data.length ∧
    ∀ i, (removeColumnLoop e n data).getD i [] =
      if i < n then (if e then (data.getD i []).dropLast else (data.getD i []).tail)
      else data.getD i [] :=
  rowLoop_spec (fun _ row => if e then row.dropLast else row.tail) data n hn

theorem addRow_error (M : Matrix) (r : List ℚ) (e : Bool) (h : r.length ≠ M.cols) :
    addRow M r e = (.error .newRowSize, M) := by
  simp [addRow, h]

theorem addRow_ok (M : Matrix) (r : List ℚ) (e : Bool) (h : r.length = M.cols) :
    addRow M r e = (.ok (), ⟨if e then M.data ++ [r] else r :: M.data, M.rows + 1, M.cols⟩) := by
  simp [addRow, h]

theorem addColumn_error (M : Matrix) (c : List ℚ) (e : Bool) (h : c.length ≠ M.rows) :
    addColumn M c e = (.error .newColumnSize, M) := by
  simp [addColumn, h]

theorem addColumn_ok (M : Matrix) (c : List ℚ) (e : Bool) (h : c.length = M.rows) :
    addColumn M c e = (.ok (), ⟨addColumnLoop c e M.rows M.data, M.rows, M.cols + 1⟩) := by
  simp [addColumn, h]

theorem removeRow_error (M : Matrix) (e : Bool) (h : M.rows = 0) :
    removeRow M e = (.error .removeRowEmpty, M) := by
  simp [removeRow, h]

theorem removeRow_ok (M : Matrix) (e : Bool) (h : M.rows ≠ 0) :
    removeRow M e = (.ok (), ⟨if e then M.data.dropLast else M.data.tail, M.rows - 1, M.cols⟩) := by
  simp [removeRow, h]

theorem removeColumn_error (M : Matrix) (e : Bool) (h : M.cols = 0) :
    removeColumn M e = (.error .removeColumnEmpty, M) := by
  simp [removeColumn, h]

theorem removeColumn_ok (M : Matrix) (e : Bool) (h : M.cols ≠ 0) :
    removeColumn M e = (.ok (), ⟨removeColumnLoop e M.rows M.data, M.rows, M.cols - 1⟩) := by
  simp [removeColumn, h]

/-- Removing, at the same end, the column that `addColumnLoop` added gives the rows back. -/
theorem removeColumnLoop_addColumnLoop (c : List ℚ) (e : Bool) (data : List (List ℚ)) :
    removeColumnLoop e data.length (addColumnLoop c e data.length data) = data := by
  obtain ⟨hlen, hget⟩ := addColumnLoop_spec c e data data.length (Nat.le_refl _)
  obtain ⟨hlen2, hget2⟩ := removeColumnLoop_spec e (addColumnLoop c e data.length data)
    data.length (by rw [hlen])
  apply list_ext_getD _ _ (hlen2.trans hlen)
  intro i hi
  rw [hlen2, hlen] at hi
  rw [hget2 i, if_pos hi, hget i, if_pos hi]
  cases e
  · simp
  · simp

end Matrix

/-- C12: appending and then removing at the same end is the identity.  For every well-formed
matrix `M`, every row `r` with `r.size() == M.cols` and either end `e`, `addRow(r, e)`
succeeds and `removeRow(e)` then succeeds and restores `M` exactly; likewise for every
column `c` with `c.size() == M.rows`, `addColumn(c, e)` followed by `removeColumn(e)`. -/
theorem add_then_remove (M : Matrix) (hM : M.WellFormed) :
    (∀ (r : List ℚ) (e : Bool), r.length = M.cols →
      (Matrix.addRow M r e).1 = .ok () ∧
      Matrix.removeRow (Matrix.addRow M r e).2 e = (.ok (), M)) ∧
    (∀ (c : List ℚ) (e : Bool), c.length = M.rows →
      (Matrix.addColumn M c e).1 = .ok () ∧
      Matrix.removeColumn (Matrix.addColumn M c e).2 e = (.ok (), M)) := by
  constructor
  · intro r e hr
    rw [Matrix.addRow_ok M r e hr]
    refine ⟨rfl, ?_⟩
    rw [Matrix.removeRow_ok _ e (by simp)]
    cases e
    · simp
    · simp
  · intro c e hc
    rw [Matrix.addColumn_ok M c e hc]
    refine ⟨rfl, ?_⟩
    rw [Matrix.removeColumn_ok _ e (by simp)]
    have := Matrix.removeColumnLoop_addColumnLoop c e M.data
    rw [hM.1] at this
    simp [this]

/-- The test driver: `addRow([10,11,12])` then `removeRow()` on `[[1,2,3],[4,5,6],[7,8,9]]`
succeeds and restores the matrix. -/
theorem add_then_remove_witness :
    (Matrix.addRow (Matrix.ofValues [[1, 2, 3], [4, 5, 6], [7, 8, 9]])
      [10, 11, 12] true).1 = .ok () ∧
    Matrix.removeRow (Matrix.addRow (Matrix.ofValues [[1, 2, 3], [4, 5, 6], [7, 8, 9]])
      [10, 11, 12] true).2 true
      = (.ok (), Matrix.ofValues [[1, 2, 3], [4, 5, 6], [7, 8, 9]]) :=
  (add_then_remove (Matrix.ofValues [[1, 2, 3], [4, 5, 6], [7, 8, 9]]) (by decide)).1
    [10, 11, 12] true rfl

end md

namespace md

/-- A non-empty list is its `dropLast` followed by an element, and an element followed by
its `tail`. -/
theorem exists_removed_element {α : Type} (l : List α) (h : l ≠ []) (e : Bool) :
    ∃ x, l = if e then l.dropLast ++ [x] else x :: l.tail := by
  cases e
  · exact ⟨l.head h, by simp [List.head_cons_tail]⟩
  · exact ⟨l.getLast h, by simp [List.dropLast_append_getLast]⟩

namespace Matrix

theorem row_ne_nil_of_wellFormed {M : Matrix} (hM : M.WellFormed) (hc : M.cols ≠ 0) {i : Nat}
    (hi : i < M.rows) : M.data.getD i [] ≠ [] := by
  apply List.ne_nil_of_length_pos
  rw [rowLength_of_wellFormed hM hi]
  omega

theorem wellFormed_of_rows {data : List (List ℚ)} {r c : Nat} (hlen : data.length = r)
    (hrow : ∀ i, i < r → (data.getD i []).length = c) :
    (⟨data, r, c⟩ : Matrix).WellFormed := by
  refine ⟨hlen, fun row hmem => ?_⟩
  obtain ⟨i, hi, he⟩ := mem_iff_getD data row hmem
  rw [← he]
  exact hrow i (hlen ▸ hi)

theorem wellFormed_addRow (M : Matrix) (r : List ℚ) (e : Bool) (hM : M.WellFormed) :
    (addRow M r e).2.WellFormed := by
  by_cases h : r.length = M.cols
  · rw [addRow_ok M r e h]
    constructor
    · cases e
      · simp [hM.1]
      · simp [hM.1]
    · intro row hrow
      cases e
      · simp only [Bool.false_eq_true, if_false, List.mem_cons] at hrow
        rcases hrow with rfl | hrow
        · exact h
        · exact hM.2 row hrow
      · simp only [if_true, List.mem_append, List.mem_singleton] at hrow
        rcases hrow with hrow | rfl
        · exact hM.2 row hrow
        · exact h
  · rw [addRow_error M r e h]
    exact hM

theorem wellFormed_addColumn (M : Matrix) (c : List ℚ) (e : Bool) (hM : M.WellFormed) :
    (addColumn M c e).2.WellFormed := by
  by_cases h : c.length = M.rows
  · rw [addColumn_ok M c e h]
    obtain ⟨hlen, hget⟩ := addColumnLoop_spec c e M.data M.rows (by rw [hM.1])
    apply wellFormed_of_rows (hlen.trans hM.1)
    intro i hi
    rw [hget i, if_pos hi]
    have := rowLength_of_wellFormed hM hi
    cases e
    · simp only [Bool.false_eq_true, if_false, List.length_cons, List.length_tail, this]
    · simp only [if_true, List.length_append, List.length_singleton, List.length_dropLast, this]
  · rw [addColumn_error M c e h]
    exact hM

theorem wellFormed_removeRow (M : Matrix) (e : Bool) (hM : M.WellFormed) :
    (removeRow M e).2.WellFormed := by
  by_cases h : M.rows = 0
  · rw [removeRow_error M e h]
    exact hM
  · rw [removeRow_ok M e h]
    constructor
    · cases e
      · simp [hM.1]
      · simp [hM.1]
    · intro row hrow
      cases e
      · exact hM.2 row (List.mem_of_mem_tail (by simpa using hrow))
      · exact hM.2 row (List.mem_of_mem_dropLast (by simpa using hrow))

theorem wellFormed_removeColumn (M : Matrix) (e : Bool) (hM : M.WellFormed) :
    (removeColumn M e).2.WellFormed := by
  by_cases h : M.cols = 0
  · rw [removeColumn_error M e h]
    exact hM
  · rw [removeColumn_ok M e h]
    obtain ⟨hlen, hget⟩ := removeColumnLoop_spec e M.data M.rows (by rw [hM.1])
    apply wellFormed_of_rows (hlen.trans hM.1)
    intro i hi
    rw [hget i, if_pos hi]
    have := rowLength_of_wellFormed hM hi
    cases e
    · simp only [Bool.false_eq_true, if_false, List.length_cons, List.length_tail, this]
    · simp only [if_true, List.length_append, List.length_singleton, List.length_dropLast, this]

end Matrix

/-- C13: `addRow(newRow, atBottom)` raises the shape error exactly when
`newRow.size() != cols`, and `addColumn(newColumn, atRight)` exactly when
`newColumn.size() != rows`; a raising call leaves the matrix unchanged.  Otherwise the new
row is the last (or first) row and the old rows follow in their order, `rows` grows by one
and `cols` is unchanged; respectively, on a well-formed matrix, row `i` gets `newColumn[i]`
as its last (or first) element in front of or after its old elements, `cols` grows by one
and `rows` is unchanged. -/
theorem addRow_addColumn_spec :
    (∀ (M : Matrix) (r : List ℚ) (e : Bool),
      (r.length ≠ M.cols ∧ Matrix.addRow M r e = (.error .newRowSize, M)) ∨
      (r.length = M.cols ∧ (Matrix.addRow M r e).1 = .ok () ∧
        (Matrix.addRow M r e).2.data = (if e then M.data ++ [r] else r :: M.data) ∧
        (Matrix.addRow M r e).2.rows = M.rows + 1 ∧
        (Matrix.addRow M r e).2.cols = M.cols)) ∧
    (∀ (M : Matrix) (c : List ℚ) (e : Bool),
      (c.length ≠ M.rows ∧ Matrix.addColumn M c e = (.error .newColumnSize, M)) ∨
      (c.length = M.rows ∧ (Matrix.addColumn M c e).1 = .ok () ∧
        (Matrix.addColumn M c e).2.rows = M.rows ∧
        (Matrix.addColumn M c e).2.cols = M.cols + 1 ∧
        (M.WellFormed →
          (Matrix.addColumn M c e).2.data.length = M.rows ∧
          ∀ i, i < M.rows → (Matrix.addColumn M c e).2.data.getD i [] =
            if e then M.data.getD i [] ++ [c.getD i 0]
            else c.getD i 0 :: M.data.getD i []))) := by
  constructor
  · intro M r e
    by_cases h : r.length = M.cols
    · right
      rw [Matrix.addRow_ok M r e h]
      exact ⟨h, rfl, rfl, rfl, rfl⟩
    · left
      exact ⟨h, Matrix.addRow_error M r e h⟩
  · intro M c e
    by_cases h : c.length = M.rows
    · right
      rw [Matrix.addColumn_ok M c e h]
      refine ⟨h, rfl, rfl, rfl, fun hM => ?_⟩
      obtain ⟨hlen, hget⟩ := Matrix.addColumnLoop_spec c e M.data M.rows (by rw [hM.1])
      refine ⟨hlen.trans hM.1, fun i hi => ?_⟩
      show (Matrix.addColumnLoop c e M.rows M.data).getD i [] = _
      rw [hget i, if_pos hi]
    · left
      exact ⟨h, Matrix.addColumn_error M c e h⟩

/-- C14: `removeRow(fromBottom)` raises the empty-structure error exactly when `rows == 0`
and `removeColumn(fromRight)` exactly when `cols == 0`; a raising call leaves the matrix
unchanged.  Otherwise `rows`, respectively `cols`, is decremented and, on a well-formed
matrix, exactly the last (or first) row is deleted, respectively exactly the last (or first)
element of every row, each row being non-empty when it is popped. -/
theorem removeRow_removeColumn_spec :
    (∀ (M : Matrix) (e : Bool),
      (M.rows = 0 ∧ Matrix.removeRow M e = (.error .removeRowEmpty, M)) ∨
      (M.rows ≠ 0 ∧ (Matrix.removeRow M e).1 = .ok () ∧
        (Matrix.removeRow M e).2.rows = M.rows - 1 ∧
        (Matrix.removeRow M e).2.cols = M.cols ∧
        (M.WellFormed → ∃ row,
          M.data = if e then (Matrix.removeRow M e).2.data ++ [row]
            else row :: (Matrix.removeRow M e).2.data))) ∧
    (∀ (M : Matrix) (e : Bool),
      (M.cols = 0 ∧ Matrix.removeColumn M e = (.error .removeColumnEmpty, M)) ∨
      (M.cols ≠ 0 ∧ (Matrix.removeColumn M e).1 = .ok () ∧
        (Matrix.removeColumn M e).2.rows = M.rows ∧
        (Matrix.removeColumn M e).2.cols = M.cols - 1 ∧
        (M.WellFormed →
          (Matrix.removeColumn M e).2.data.length = M.rows ∧
          (∀ i, i < M.rows → ∃ x,
            M.data.getD i [] =
              if e then (Matrix.removeColumn M e).2.data.getD i [] ++ [x]
              else x :: (Matrix.removeColumn M e).2.data.getD i []) ∧
          (∀ i, i < M.rows → (Matrix.removeColumnLoop e i M.data).getD i [] ≠ [])))) := by
  constructor
  · intro M e
    by_cases h : M.rows = 0
    · left
      exact ⟨h, Matrix.removeRow_error M e h⟩
    · right
      rw [Matrix.removeRow_ok M e h]
      refine ⟨h, rfl, rfl, rfl, fun hM => ?_⟩
      have hne : M.data ≠ [] := by
        apply List.ne_nil_of_length_pos
        rw [hM.1]
        omega
      obtain ⟨row, hrow⟩ := exists_removed_element M.data hne e
      refine ⟨row, ?_⟩
      cases e
      · simpa using hrow
      · simpa using hrow
  · intro M e
    by_cases h : M.cols = 0
    · left
      exact ⟨h, Matrix.removeColumn_error M e h⟩
    · right
      rw [Matrix.removeColumn_ok M e h]
      refine ⟨h, rfl, rfl, rfl, fun hM => ?_⟩
      obtain ⟨hlen, hget⟩ := Matrix.removeColumnLoop_spec e M.data M.rows (by rw [hM.1])
      refine ⟨hlen.trans hM.1, fun i hi => ?_, fun i hi => ?_⟩
      · show ∃ x, M.data.getD i [] =
          if e then (Matrix.removeColumnLoop e M.rows M.data).getD i [] ++ [x]
          else x :: (Matrix.removeColumnLoop e M.rows M.data).getD i []
        rw [hget i, if_pos hi]
        obtain ⟨x, hx⟩ := exists_removed_element (M.data.getD i [])
          (Matrix.row_ne_nil_of_wellFormed hM h hi) e
        refine ⟨x, ?_⟩
        cases e
        · simpa using hx
        · simpa using hx
      · obtain ⟨_, hget2⟩ := Matrix.removeColumnLoop_spec e M.data i
          (by rw [hM.1]; omega)
        rw [hget2 i, if_neg (Nat.lt_irrefl i)]
        exact Matrix.row_ne_nil_of_wellFormed hM h hi

end md

namespace md
namespace Matrix

/-! ## The shape invariant -/

theorem wellFormed_of_add_ok (A B R : Matrix) (h : add A B = .ok R) : R.WellFormed := by
  by_cases hdim : A.rows = B.rows ∧ A.cols = B.cols
  · obtain ⟨S, hS, hs, _⟩ := add_spec A B hdim.1 hdim.2
    rw [h] at hS
    rw [Except.ok.inj hS]
    exact hs.1
  · have : A.rows ≠ B.rows ∨ A.cols ≠ B.cols := by
      by_contra hc
      push_neg at hc
      exact hdim hc
    simp [add, this] at h

theorem wellFormed_of_sub_ok (A B R : Matrix) (h : sub A B = .ok R) : R.WellFormed := by
  by_cases hdim : A.rows = B.rows ∧ A.cols = B.cols
  · obtain ⟨S, hS, hs, _⟩ := sub_spec A B hdim.1 hdim.2
    rw [h] at hS
    rw [Except.ok.inj hS]
    exact hs.1
  · have : A.rows ≠ B.rows ∨ A.cols ≠ B.cols := by
      by_contra hc
      push_neg at hc
      exact hdim hc
    simp [sub, this] at h

theorem wellFormed_of_mul_ok (A B R : Matrix) (h : mul A B = .ok R) : R.WellFormed := by
  by_cases hdim : A.cols = B.rows
  · obtain ⟨S, hS, hs, _⟩ := mul_spec A B hdim
    rw [h] at hS
    rw [Except.ok.inj hS]
    exact hs.1
  · simp [mul, hdim] at h

theorem wellFormed_of_div_ok (A B R : Matrix) (h : div A B = .ok R) : R.WellFormed := by
  unfold div at h
  cases hinv : inverse B with
  | error e => rw [hinv] at h; cases h
  | ok I =>
    rw [hinv] at h
    exact wellFormed_of_mul_ok A I R h

theorem dims_fillAssign (S : Matrix) (v : ℚ) :
    (fillAssign S v).rows = S.rows ∧ (fillAssign S v).cols = S.cols := by
  refine forRange_induction (fun _ (t : Matrix) => t.rows = S.rows ∧ t.cols = S.cols)
    S.rows _ S ⟨rfl, rfl⟩ ?_
  intro i t _ ht
  refine forRange_induction (fun _ (u : Matrix) => u.rows = S.rows ∧ u.cols = S.cols)
    S.cols _ t ht ?_
  intro j u _ hu
  exact hu

/-! ## The minor in the words of the specification -/

theorem getD_eraseIdx_rows (l : List (List ℚ)) (i x : Nat) :
    (l.eraseIdx i).getD x [] = l.getD (skipIdx i x) [] := by
  simp only [List.getD_eq_getElem?_getD, List.getElem?_eraseIdx, skipIdx]
  split_ifs <;> rfl

theorem getD_eraseIdx_entries (l : List ℚ) (j y : Nat) :
    (l.eraseIdx j).getD y 0 = l.getD (skipIdx j y) 0 := by
  simp only [List.getD_eq_getElem?_getD, List.getElem?_eraseIdx, skipIdx]
  split_ifs <;> rfl

theorem get_deleteRowColumn (A : Matrix) (i j x y : Nat) :
    (deleteRowColumn A i j).get x y = A.get (skipIdx i x) (skipIdx j y) := by
  have hrow : ((A.data.eraseIdx i).map (fun row => row.eraseIdx j)).getD x [] =
      ((A.data.eraseIdx i).getD x []).eraseIdx j := by
    simp only [List.getD_eq_getElem?_getD, List.getElem?_map]
    cases (A.data.eraseIdx i)[x]? <;> rfl
  simp only [get, deleteRowColumn]
  rw [hrow, getD_eraseIdx_entries, getD_eraseIdx_rows]

theorem hasShape_deleteRowColumn (A : Matrix) (hA : A.WellFormed) (i j : Nat)
    (hi : i < A.rows) (hj : j < A.cols) :
    (deleteRowColumn A i j).HasShape (A.rows - 1) (A.cols - 1) := by
  refine ⟨⟨?_, ?_⟩, rfl, rfl⟩
  · simp only [deleteRowColumn, List.length_map, List.length_eraseIdx, hA.1, hi, if_true]
  · intro row hrow
    simp only [deleteRowColumn, List.mem_map] at hrow
    obtain ⟨r, hr, rfl⟩ := hrow
    have hlen := hA.2 r (List.mem_of_mem_eraseIdx hr)
    simp only [deleteRowColumn, List.length_eraseIdx, hlen, hj, if_true]

/-- The minor built by the loops of `inverse` is the matrix obtained by deleting row `i` and
column `j`. -/
theorem inverseSubMatrix_eq_deleteRowColumn (A : Matrix) (hA : A.WellFormed) (i j : Nat)
    (hi : i < A.rows) (hj : j < A.cols) :
    inverseSubMatrix A i j = deleteRowColumn A i j := by
  obtain ⟨hs, hget⟩ := inverseSubMatrix_spec A i j hi hj
  have hs2 := hasShape_deleteRowColumn A hA i j hi hj
  apply ext_get hs.1 hs2.1 (hs.2.1.trans hs2.2.1.symm) (hs.2.2.trans hs2.2.2.symm)
  intro x y hx hy
  rw [hs.2.1] at hx
  rw [hs.2.2] at hy
  rw [hget x y hx hy, get_deleteRowColumn]

end Matrix

/-- C15: the shape invariant (the storage has exactly `rows` rows and every row has exactly
`cols` elements) holds after `construct(rows, cols)`, holds for the result of `+`, `-`,
matrix `*`, scalar `*`, `/`, `transpose` and `inverse` on well-formed operands, and still
holds for the matrix after `addRow`, `addColumn`, `removeRow`, `removeColumn` and the
fill-assignment, whether they succeed or raise. -/
theorem shape_invariant :
    (∀ r c : Nat, (Matrix.construct r c).WellFormed ∧ (Matrix.construct r c).rows = r ∧
      (Matrix.construct r c).cols = c) ∧
    (∀ A B R : Matrix, A.WellFormed → B.WellFormed →
      (Matrix.add A B = .ok R ∨ Matrix.sub A B = .ok R ∨ Matrix.mul A B = .ok R ∨
        Matrix.div A B = .ok R) → R.WellFormed) ∧
    (∀ (A : Matrix) (s : ℚ), A.WellFormed →
      (A.scale s).WellFormed ∧ (Matrix.scalarMul s A).WellFormed ∧ A.transpose.WellFormed) ∧
    (∀ A R : Matrix, A.WellFormed → Matrix.inverse A = .ok R → R.WellFormed) ∧
    (∀ (M : Matrix) (l : List ℚ) (e : Bool) (v : ℚ), M.WellFormed →
      (Matrix.addRow M l e).2.WellFormed ∧ (Matrix.addColumn M l e).2.WellFormed ∧
      (Matrix.removeRow M e).2.WellFormed ∧ (Matrix.removeColumn M e).2.WellFormed ∧
      (Matrix.fillAssign M v).WellFormed) := by
  refine ⟨fun r c => ⟨Matrix.wellFormed_construct r c, rfl, rfl⟩, ?_, ?_, ?_, ?_⟩
  · intro A B R _ _ h
    rcases h with h | h | h | h
    · exact Matrix.wellFormed_of_add_ok A B R h
    · exact Matrix.wellFormed_of_sub_ok A B R h
    · exact Matrix.wellFormed_of_mul_ok A B R h
    · exact Matrix.wellFormed_of_div_ok A B R h
  · intro A s _
    exact ⟨(Matrix.scale_spec A s).1.1, (Matrix.scale_spec A s).1.1,
      (Matrix.transpose_spec A).1.1⟩
  · intro A R _ h
    exact (Matrix.shape_of_inverse_ok A R h).1
  · intro M l e v hM
    exact ⟨Matrix.wellFormed_addRow M l e hM, Matrix.wellFormed_addColumn M l e hM,
      Matrix.wellFormed_removeRow M e hM, Matrix.wellFormed_removeColumn M e hM,
      (Matrix.fillAssign_spec M v hM).1.1⟩

/-- C18 fails on `SquareMatrix(1)`: the inherited `addRow({0})` succeeds on this square
matrix and leaves it with `rows = 2` and `cols = 1`. -/
theorem squareMatrix_addRow_not_square :
    (Matrix.squareMatrix 1).rows = (Matrix.squareMatrix 1).cols ∧
    (Matrix.addRow (Matrix.squareMatrix 1) [0] true).1 = .ok () ∧
    (Matrix.addRow (Matrix.squareMatrix 1) [0] true).2 = ⟨[[0], [0]], 2, 1⟩ ∧
    (Matrix.addRow (Matrix.squareMatrix 1) [0] true).2.rows ≠
      (Matrix.addRow (Matrix.squareMatrix 1) [0] true).2.cols := by
  refine ⟨rfl, rfl, rfl, ?_⟩
  show (2 : Nat) ≠ 1
  decide

/-- C18 as the code has it: a `SquareMatrix` has `rows == cols` after construction by size
`n` (the `n x n` zero matrix); the element write and the fill-assignment change neither
`rows` nor `cols` and so keep `rows == cols`; the inherited `addRow`, `addColumn`,
`removeRow` and `removeColumn` keep it when they raise (the matrix is unchanged) and, when
they succeed, change exactly one of `rows` and `cols` by one and leave the other as it was,
so that a square matrix is no longer square. -/
theorem squareMatrix_invariant_kept_by_writes :
    (∀ n : Nat, (Matrix.squareMatrix n).WellFormed ∧ (Matrix.squareMatrix n).rows = n ∧
      (Matrix.squareMatrix n).cols = n ∧ ∀ i j, (Matrix.squareMatrix n).get i j = 0) ∧
    (∀ (S : Matrix) (i j : Nat) (v : ℚ),
      (S.set i j v).rows = S.rows ∧ (S.set i j v).cols = S.cols ∧
      (S.rows = S.cols → (S.set i j v).rows = (S.set i j v).cols)) ∧
    (∀ (S : Matrix) (v : ℚ),
      (Matrix.fillAssign S v).rows = S.rows ∧ (Matrix.fillAssign S v).cols = S.cols ∧
      (S.rows = S.cols → (Matrix.fillAssign S v).rows = (Matrix.fillAssign S v).cols)) ∧
    (∀ (S : Matrix) (l : List ℚ) (e : Bool),
      ((Matrix.addRow S l e).1 ≠ .ok () → (Matrix.addRow S l e).2 = S) ∧
      ((Matrix.addRow S l e).1 = .ok () →
        (Matrix.addRow S l e).2.rows = S.rows + 1 ∧ (Matrix.addRow S l e).2.cols = S.cols ∧
        (S.rows = S.cols →
          (Matrix.addRow S l e).2.rows = (Matrix.addRow S l e).2.cols + 1)) ∧
      ((Matrix.addColumn S l e).1 ≠ .ok () → (Matrix.addColumn S l e).2 = S) ∧
      ((Matrix.addColumn S l e).1 = .ok () →
        (Matrix.addColumn S l e).2.cols = S.cols + 1 ∧
        (Matrix.addColumn S l e).2.rows = S.rows ∧
        (S.rows = S.cols →
          (Matrix.addColumn S l e).2.cols = (Matrix.addColumn S l e).2.rows + 1)) ∧
      ((Matrix.removeRow S e).1 ≠ .ok () → (Matrix.removeRow S e).2 = S) ∧
      ((Matrix.removeRow S e).1 = .ok () →
        (Matrix.removeRow S e).2.rows + 1 = S.rows ∧ (Matrix.removeRow S e).2.cols = S.cols ∧
        (S.rows = S.cols →
          (Matrix.removeRow S e).2.rows + 1 = (Matrix.removeRow S e).2.cols)) ∧
      ((Matrix.removeColumn S e).1 ≠ .ok () → (Matrix.removeColumn S e).2 = S) ∧
      ((Matrix.removeColumn S e).1 = .ok () →
        (Matrix.removeColumn S e).2.cols + 1 = S.cols ∧
        (Matrix.removeColumn S e).2.rows = S.rows ∧
        (S.rows = S.cols →
          (Matrix.removeColumn S e).2.cols + 1 = (Matrix.removeColumn S e).2.rows))) := by
  refine ⟨fun n => ⟨Matrix.wellFormed_construct n n, rfl, rfl,
    fun i j => Matrix.get_construct n n i j⟩, fun S i j v => ⟨rfl, rfl, fun h => h⟩, ?_, ?_⟩
  · intro S v
    refine ⟨(Matrix.dims_fillAssign S v).1, (Matrix.dims_fillAssign S v).2, fun h => ?_⟩
    rw [(Matrix.dims_fillAssign S v).1, (Matrix.dims_fillAssign S v).2, h]
  · intro S l e
    refine ⟨?_, ?_, ?_, ?_, ?_, ?_, ?_, ?_⟩
    · intro h
      by_cases hl : l.length = S.cols
      · rw [Matrix.addRow_ok S l e hl] at h
        exact absurd rfl h
      · rw [Matrix.addRow_error S l e hl]
    · intro h
      by_cases hl : l.length = S.cols
      · rw [Matrix.addRow_ok S l e hl]
        refine ⟨rfl, rfl, fun hsq => ?_⟩
        show S.rows + 1 = S.cols + 1
        rw [hsq]
      · rw [Matrix.addRow_error S l e hl] at h
        cases h
    · intro h
      by_cases hl : l.length = S.rows
      · rw [Matrix.addColumn_ok S l e hl] at h
        exact absurd rfl h
      · rw [Matrix.addColumn_error S l e hl]
    · intro h
      by_cases hl : l.length = S.rows
      · rw [Matrix.addColumn_ok S l e hl]
        refine ⟨rfl, rfl, fun hsq => ?_⟩
        show S.cols + 1 = S.rows + 1
        rw [hsq]
      · rw [Matrix.addColumn_error S l e hl] at h
        cases h
    · intro h
      by_cases h0 : S.rows = 0
      · rw [Matrix.removeRow_error S e h0]
      · rw [Matrix.removeRow_ok S e h0] at h
        exact absurd rfl h
    · intro h
      by_cases h0 : S.rows = 0
      · rw [Matrix.removeRow_error S e h0] at h
        cases h
      · rw [Matrix.removeRow_ok S e h0]
        refine ⟨?_, rfl, fun hsq => ?_⟩
        · show S.rows - 1 + 1 = S.rows
          omega
        · show S.rows - 1 + 1 = S.cols
          omega
    · intro h
      by_cases h0 : S.cols = 0
      · rw [Matrix.removeColumn_error S e h0]
      · rw [Matrix.removeColumn_ok S e h0] at h
        exact absurd rfl h
    · intro h
      by_cases h0 : S.cols = 0
      · rw [Matrix.removeColumn_error S e h0] at h
        cases h
      · rw [Matrix.removeColumn_ok S e h0]
        refine ⟨?_, rfl, fun hsq => ?_⟩
        · show S.cols - 1 + 1 = S.cols
          omega
        · show S.cols - 1 + 1 = S.rows
          omega

/-- C19, the adjugate formula: for every well-formed `n x n` matrix `A` (`n >= 1`) whose
`determinant()` is `d != 0`, `inverse()` returns a well-formed `n x n` matrix `R` with
`R[j][i] = determinant(minor_ij) * sign(i + j) * (1 / d)` for all `i, j < n`, where
`minor_ij` is the `(n-1) x (n-1)` matrix obtained from `A` by deleting row `i` and column
`j`, `determinant` is the library's own, and the sign is `+1` for even `i + j`, `-1` for
odd. -/
theorem adjugate_formula (n : Nat) (A : Matrix) (_hn : 1 ≤ n) (hA : A.WellFormed)
    (hr : A.rows = n) (hc : A.cols = n) (d : ℚ) (hd : Matrix.determinant A = .ok d)
    (hd0 : d ≠ 0) :
    ∃ R, Matrix.inverse A = .ok R ∧ R.WellFormed ∧ R.rows = n ∧ R.cols = n ∧
      ∀ i j, i < n → j < n →
        (Matrix.deleteRowColumn A i j).WellFormed ∧
        (Matrix.deleteRowColumn A i j).rows = n - 1 ∧
        (Matrix.deleteRowColumn A i j).cols = n - 1 ∧
        ∃ c, Matrix.determinant (Matrix.deleteRowColumn A i j) = .ok c ∧
          R.get j i = c * (if (i + j) % 2 = 0 then 1 else -1) * (1 / d) := by
  obtain ⟨R, hR, hs, hget⟩ := Matrix.inverse_spec A (hr.trans hc.symm) d hd hd0
  rw [hr, hc] at hs hget
  refine ⟨R, hR, hs.1, hs.2.1, hs.2.2, fun i j hi hj => ?_⟩
  have hi2 : i < A.rows := by rw [hr]; exact hi
  have hj2 : j < A.cols := by rw [hc]; exact hj
  have hshape := Matrix.hasShape_deleteRowColumn A hA i j hi2 hj2
  rw [hr, hc] at hshape
  refine ⟨hshape.1, hshape.2.1, hshape.2.2, ?_⟩
  have hminor := Matrix.inverseSubMatrix_eq_deleteRowColumn A hA i j hi2 hj2
  refine ⟨Matrix.determinantValue (Matrix.deleteRowColumn A i j), ?_, ?_⟩
  · exact Matrix.determinant_eq_ok_determinantValue _ (hshape.2.1.trans hshape.2.2.symm)
  · rw [hget i j hi hj, hminor]

end md

namespace md

/-! ## Further instances on the matrices of the test driver -/

/-- Test 16 of the driver: the `3 x 3` identity matrix plus `m2 = m1.transpose()`. -/
theorem identity_add_witness :
    ∃ S, Matrix.add (Matrix.squareMatrixIdentity 3)
        (Matrix.ofValues [[1, 2, 3], [4, 5, 6], [7, 8, 9]]).transpose = .ok S ∧
      S.WellFormed ∧ S.rows = 3 ∧ S.cols = 3 ∧
      ∀ i j, i < 3 → j < 3 → S.get i j =
        if i = j then (Matrix.ofValues [[1, 2, 3], [4, 5, 6], [7, 8, 9]]).transpose.get i j + 1
        else (Matrix.ofValues [[1, 2, 3], [4, 5, 6], [7, 8, 9]]).transpose.get i j :=
  (identity_add 3 (Matrix.ofValues [[1, 2, 3], [4, 5, 6], [7, 8, 9]]).transpose
    (Matrix.transpose_spec _).1.1 (Matrix.transpose_spec _).1.2.1
    (Matrix.transpose_spec _).1.2.2).2

/-- Test 13 of the driver: `SquareMatrix(3)` assigned `3.0`. -/
theorem fillAssign_sets_all_witness :
    (Matrix.fillAssign (Matrix.squareMatrix 3) 3).rows = 3 ∧
    (Matrix.fillAssign (Matrix.squareMatrix 3) 3).cols = 3 ∧
    (Matrix.fillAssign (Matrix.squareMatrix 3) 3).WellFormed ∧
    ∀ i j, i < 3 → j < 3 → (Matrix.fillAssign (Matrix.squareMatrix 3) 3).get i j = 3 :=
  fillAssign_sets_all (Matrix.squareMatrix 3) 3 (Matrix.wellFormed_construct 3 3)

/-- The adjugate formula on the matrix `[[4,7],[2,6]]` of test 8, of determinant `10`. -/
theorem adjugate_formula_witness :
    ∃ R, Matrix.inverse (Matrix.ofValues [[4, 7], [2, 6]]) = .ok R ∧ R.WellFormed ∧
      R.rows = 2 ∧ R.cols = 2 ∧
      ∀ i j, i < 2 → j < 2 →
        (Matrix.deleteRowColumn (Matrix.ofValues [[4, 7], [2, 6]]) i j).WellFormed ∧
        (Matrix.deleteRowColumn (Matrix.ofValues [[4, 7], [2, 6]]) i j).rows = 2 - 1 ∧
        (Matrix.deleteRowColumn (Matrix.ofValues [[4, 7], [2, 6]]) i j).cols = 2 - 1 ∧
        ∃ c, Matrix.determinant
            (Matrix.deleteRowColumn (Matrix.ofValues [[4, 7], [2, 6]]) i j) = .ok c ∧
          R.get j i = c * (if (i + j) % 2 = 0 then 1 else -1) * (1 / 10) :=
  adjugate_formula 2 (Matrix.ofValues [[4, 7], [2, 6]]) (by decide) (by decide) rfl rfl 10
    Matrix.inverse_test_matrix.1 (by norm_num)

end md

namespace md

/-! ## The `1 x 1` inverse in double precision -/

namespace Double

theorem roundMagnitude_zero : roundMagnitude 0 = 0 := by
  simp [roundMagnitude]

theorem overflowThreshold_pos : 0 < overflowThreshold := by
  unfold overflowThreshold
  norm_num

theorem round_zero (negative : Bool) : round negative 0 = signedZero negative := by
  unfold round
  rw [if_neg (not_le.mpr overflowThreshold_pos), if_pos roundMagnitude_zero]

theorem isZero_signedZero (negative : Bool) : (signedZero negative).isZero = true := by
  cases negative <;> simp [signedZero, isZero]

theorem isInfinite_signedZero (negative : Bool) : (signedZero negative).isInfinite = false := by
  cases negative <;> simp [signedZero, isInfinite]

/-- The product `0.0 * 1.0` is `+0.0`. -/
theorem zero_mul_one : (finite 0).mul (finite 1) = finite 0 := by
  simp [mul, isNaN, isInfinite, isNegative, magnitude, round_zero, signedZero]

/-- The product of `+0.0` and a finite value is a zero. -/
theorem isZero_zero_mul (y : Double) (hn : y.isNaN = false) (hi : y.isInfinite = false) :
    ((finite 0).mul y).isZero = true := by
  cases y with
  | nan => simp [isNaN] at hn
  | posInf => simp [isInfinite] at hi
  | negInf => simp [isInfinite] at hi
  | negZero => simp [mul, isNaN, isInfinite, magnitude, round_zero, isZero_signedZero]
  | finite q => simp [mul, isNaN, isInfinite, magnitude, round_zero, isZero_signedZero]

/-- The product of `+0.0` and an infinity or NaN is NaN. -/
theorem zero_mul_eq_nan (y : Double) (h : y.isNaN = true ∨ y.isInfinite = true) :
    (finite 0).mul y = nan := by
  rcases h with h | h
  · simp [mul, h]
  · cases y <;> simp_all [mul, isNaN, isInfinite, isZero]

/-- The quotient `1.0 / a` is NaN exactly when `a` is. -/
theorem isNaN_one_div (a : Double) : (div (finite 1) a).isNaN = a.isNaN := by
  have h1 : ¬ ((1 : ℚ) < 0) := by norm_num
  cases a with
  | nan => simp [div, isNaN]
  | posInf => simp [div, isNaN, isInfinite, signedZero, isNegative, h1]
  | negInf => simp [div, isNaN, isInfinite, signedZero, isNegative, h1]
  | negZero => simp [div, isNaN, isInfinite, isZero, signedInf, isNegative, h1]
  | finite q =>
    by_cases hq : q = 0
    · subst hq
      simp [div, isNaN, isInfinite, isZero, signedInf, isNegative, h1]
    · simp only [div, isNaN, isInfinite, isZero, hq, Bool.or_self, Bool.false_eq_true,
        if_false, decide_False, round, signedInf, signedZero]
      split_ifs <;> rfl

/-- The quotient `1.0 / 2^-1074`, by the smallest positive `double`, overflows to `+inf`. -/
theorem one_div_smallest_subnormal : div (finite 1) (finite (1 / 2 ^ 1074)) = posInf := by
  have hne : ¬ ((1 : ℚ) / 2 ^ 1074 = 0) := by norm_num
  have hnn : ¬ ((1 : ℚ) / 2 ^ 1074 < 0) := by norm_num
  have hover : overflowThreshold ≤ |(1 : ℚ)| / |(1 : ℚ) / 2 ^ 1074| := by
    rw [abs_one, abs_of_pos (by norm_num : (0 : ℚ) < 1 / 2 ^ 1074)]
    unfold overflowThreshold
    norm_num
  simp only [div, isNaN, isInfinite, isZero, isNegative, magnitude, hne, hnn, Bool.or_self,
    Bool.false_eq_true, if_false, decide_False, round, hover, if_true, signedInf]
  norm_num

end Double

namespace DoubleMatrix

/-- On `double` entries `inverse()` of a `1 x 1` matrix `[[a]]` with `a != 0` raises no error
and returns the matrix whose entry is `(0.0 * 1.0) * (1.0 / a)`. -/
theorem inverse_one_by_one_eq (a : Double) (ha : a.isZero = false) :
    inverse ⟨[[a]], 1, 1⟩ =
      .ok ⟨[[((Double.finite 0).mul (.finite 1)).mul (Double.div (.finite 1) a)]], 1, 1⟩ := by
  have hdet : determinant ⟨[[a]], 1, 1⟩ = .ok a := rfl
  simp [inverse, hdet, ha, adjugateLoop, inverseSubMatrix, forRange, construct, set, get,
    scale, List.range_succ, determinant, determinantAux, bind, Except.bind, pure, Except.pure]

end DoubleMatrix

/-- C20 fails in double precision: for the smallest positive `double` `a = 2^-1074`, which
is not zero, `1 / a` overflows to `+inf` and `inverse()` of `[[a]]` returns `[[NaN]]`
(`0.0 * inf`), not `[[0]]`; a NaN entry, for which `det == 0` is false as well, also gives
`[[NaN]]`. -/
theorem inverse_one_by_one_subnormal :
    (Double.finite (1 / 2 ^ 1074)).isZero = false ∧
    (Double.finite (1 / 2 ^ 1074)).isNaN = false ∧
    Double.div (.finite 1) (.finite (1 / 2 ^ 1074)) = .posInf ∧
    DoubleMatrix.inverse ⟨[[.finite (1 / 2 ^ 1074)]], 1, 1⟩ = .ok ⟨[[.nan]], 1, 1⟩ ∧
    Double.nan.isZero = false ∧
    DoubleMatrix.inverse ⟨[[.nan]], 1, 1⟩ = .ok ⟨[[.nan]], 1, 1⟩ := by
  have hz : (Double.finite (1 / 2 ^ 1074)).isZero = false := by
    simp [Double.isZero]
  refine ⟨hz, rfl, Double.one_div_smallest_subnormal, ?_, rfl, ?_⟩
  · rw [DoubleMatrix.inverse_one_by_one_eq _ hz, Double.zero_mul_one,
      Double.one_div_smallest_subnormal]
    rfl
  · rw [DoubleMatrix.inverse_one_by_one_eq Double.nan rfl, Double.zero_mul_one]
    rfl

/-- C20 as the code has it: for every `1 x 1` matrix `[[a]]` with `a != 0`, `inverse()`
raises no error and returns a `1 x 1` matrix; its only cofactor is `determinant()` of the
empty `0 x 0` minor, computed as `0`, and its entry is `0 * (1 / a)`.  With exact entries
this is `0`.  In double precision it is a zero when `a` is not NaN and `1 / a` does not
overflow to an infinity, and NaN otherwise. -/
theorem inverse_one_by_one :
    (∀ a : ℚ, a ≠ 0 →
      Matrix.inverseSubMatrix ⟨[[a]], 1, 1⟩ 0 0 = ⟨[], 0, 0⟩ ∧
      Matrix.determinant (Matrix.inverseSubMatrix ⟨[[a]], 1, 1⟩ 0 0) = .ok 0 ∧
      Matrix.inverse ⟨[[a]], 1, 1⟩ = .ok ⟨[[0]], 1, 1⟩) ∧
    (∀ a : Double, a.isZero = false →
      DoubleMatrix.inverseSubMatrix ⟨[[a]], 1, 1⟩ 0 0 = ⟨[], 0, 0⟩ ∧
      DoubleMatrix.determinant (DoubleMatrix.inverseSubMatrix ⟨[[a]], 1, 1⟩ 0 0)
        = .ok (.finite 0) ∧
      ∃ z, DoubleMatrix.inverse ⟨[[a]], 1, 1⟩ = .ok ⟨[[z]], 1, 1⟩ ∧
        z = (Double.finite 0).mul (Double.div (.finite 1) a) ∧
        (a.isNaN = false → (Double.div (.finite 1) a).isInfinite = false →
          z.isZero = true) ∧
        ((a.isNaN = true ∨ (Double.div (.finite 1) a).isInfinite = true) →
          z = .nan)) := by
  refine ⟨fun a ha => inverse_one_by_one_exact a ha, fun a ha => ⟨rfl, rfl, ?_⟩⟩
  refine ⟨_, DoubleMatrix.inverse_one_by_one_eq a ha, by rw [Double.zero_mul_one], ?_, ?_⟩
  · intro hn hi
    rw [Double.zero_mul_one]
    exact Double.isZero_zero_mul _ (by rw [Double.isNaN_one_div]; exact hn) hi
  · intro h
    rw [Double.zero_mul_one]
    apply Double.zero_mul_eq_nan
    rcases h with h | h
    · left
      rw [Double.isNaN_one_div]
      exact h
    · right
      exact h

end md
